import Mathlib

set_option maxHeartbeats 1000000

/-
Verification of the combination enumerator of `src/combinations.rs`:
the `binomial` free function and the `Combinations` structure with its
operations `new`, `is_done`, `next_combination_mut`, `next_combination`,
`reset`, `count_remaining`, `linear_index` and `combinatorial_index`.

All machine integers (`u64`, `usize`) are modelled as `Nat`; `usize`
subtraction never underflows on the verified domain and is modelled by
truncated subtraction, while the `u64` multiplication inside `binomial`
is modelled with an explicit modulus `U = 2 ^ 64` because the spec makes
a claim about its overflow behaviour.  Each `while` loop is modelled by
a structurally recursive function; where the loop variable itself does
not decrease, an explicit fuel argument is added which provably
dominates the number of iterations on every reachable input (the
fuel-exhaustion branch returns the loop-exit value, or `none` for the
one loop, in `combinatorial_index`, whose termination depends on the
precondition `l < C(n,k)`).
-/

/-- `2 ^ 64`, the modulus of Rust `u64` arithmetic. -/
def U : Nat := 18446744073709551616

/-- The loop of `binomial`: `while i < K { i += 1; m += 1; p = m * p / i }`,
with `u64` wrapping for `m + 1` and `m * p`.  `fuel = K - i` at every
reachable call, so the fuel branch is dead. -/
def bgo (K : Nat) : Nat → Nat → Nat → Nat → Nat
  | 0, _, _, p => p
  | fuel + 1, i, m, p =>
    if i < K then bgo K fuel (i + 1) ((m + 1) % U) ((m + 1) % U * p % U / (i + 1))
    else p

/-- `pub fn binomial(n: u64, k: u64) -> u64` of `combinations.rs`. -/
def binomial (n k : Nat) : Nat :=
  if n < k then 0
  else
    let m := n - k
    let mk := if k < m then (m, k) else (k, m)
    bgo mk.2 mk.2 0 mk.1 1

/-- `pub struct Combinations` of `combinations.rs`. -/
structure Combinations where
  n : Nat
  k : Nat
  digits : List Nat
  initial : Bool
deriving Repr, DecidableEq

/-- `Combinations::new`. -/
def Combinations.new (n k : Nat) : Combinations :=
  { n := n, k := k
    digits := if k ≤ n then List.range k else []
    initial := decide (k ≤ n) }

/-- `Combinations::is_done`.  `self.digits[0]` is modelled by `headD`:
on every state the method is actually run on, `k ≠ 0 ∧ ¬(k > n)` implies
`digits` is non-empty. -/
def Combinations.is_done (c : Combinations) : Bool :=
  decide (c.n < c.k) || (decide (c.k = 0) && !c.initial)
    || (!decide (c.k = 0) && decide (c.n - c.k < c.digits.headD 0))

/-- The carry loop of `next_combination_mut`:
`while digits[j] == len + j && j != 0 { j -= 1; digits[j] += 1 }`.
Structural recursion on `j`; the `j = 0` case exits the loop exactly as
the `j != 0` conjunct does in the source. -/
def carryLoop (len : Nat) : Nat → List Nat → List Nat × Nat
  | 0, ds => (ds, 0)
  | j + 1, ds =>
    if ds.getD (j + 1) 0 = len + (j + 1) then
      carryLoop len j (ds.set j (ds.getD j 0 + 1))
    else (ds, j + 1)

/-- The fill loop of `next_combination_mut`:
`while j < k { digits[j] = digits[j-1] + 1; j += 1 }`, with fuel
(`fuel ≥ k - j` at every use). -/
def fillLoop (k : Nat) : Nat → Nat → List Nat → List Nat
  | 0, _, ds => ds
  | fuel + 1, j, ds =>
    if j < k then fillLoop k fuel (j + 1) (ds.set j (ds.getD (j - 1) 0 + 1))
    else ds

/-- `Combinations::next_combination_mut`.  Note the source sets
`self.initial = false` before the `is_done` test. -/
def Combinations.next_combination_mut (c : Combinations) : Combinations :=
  let c1 : Combinations := { c with initial := false }
  if c1.is_done then c1
  else
    let j := c1.k - 1
    let len := c1.n - c1.k + 1
    let ds0 := c1.digits.set j (c1.digits.getD j 0 + 1)
    let p := carryLoop len j ds0
    { c1 with digits := fillLoop c1.k c1.k (p.2 + 1) p.1 }

/-- `Combinations::next_combination`, with the mutation of `self` made
explicit as the second component of the result. -/
def Combinations.next_combination (c : Combinations) : Option (List Nat) × Combinations :=
  if c.is_done then (none, c) else (some c.digits, c.next_combination_mut)

/-- `Combinations::reset`: `initial = k <= n` and `digits[i] = i`
(the length of `digits` is unchanged). -/
def Combinations.reset (c : Combinations) : Combinations :=
  { c with initial := decide (c.k ≤ c.n), digits := List.range c.digits.length }

/-- The loop of `count_remaining`, entered with
`i = 0, j = k - 1, s = 0, v = digits[k-1]`; `fuel ≥ k - 1 - i` at every
use, and the fuel-out branch returns the loop-exit value. -/
def crLoop (n k : Nat) (digits : List Nat) : Nat → Nat → Nat → Nat → Nat → Nat
  | 0, _, _, s, v => s + binomial (n - v) k
  | fuel + 1, i, j, s, v =>
    if i < k - 1 then
      if digits.getD (j - 1) 0 ≠ v then
        crLoop n k digits fuel (i + 1) (j - 1)
          (s + binomial (n - v) (i + 1)) (digits.getD (j - 1) 0 + 1)
      else crLoop n k digits fuel (i + 1) (j - 1) s (digits.getD (j - 1) 0)
    else s + binomial (n - v) k

/-- `Combinations::count_remaining`. -/
def Combinations.count_remaining (c : Combinations) : Nat :=
  if c.k = 0 then (if c.initial then 1 else 0)
  else if c.n < c.k then 0
  else if c.k = 1 then c.n - c.digits.headD 0
  else crLoop c.n c.k c.digits (c.k - 1) 0 (c.k - 1) 0 (c.digits.getD (c.k - 1) 0)

/-- The loop of `linear_index`, entered with
`i = 0, j = k - 1, s = 0, v = digits[k-1]`; on loop exit the source adds
`binomial(n, k) - binomial(n - digits[0], k)` to `s`. -/
def liLoop (n k : Nat) (digits : List Nat) : Nat → Nat → Nat → Nat → Nat → Nat
  | 0, _, _, s, _ => s + (binomial n k - binomial (n - digits.headD 0) k)
  | fuel + 1, i, j, s, v =>
    if i < k - 1 then
      if digits.getD (j - 1) 0 ≠ v then
        liLoop n k digits fuel (i + 1) (j - 1)
          (s + (binomial (n - 1 - digits.getD (j - 1) 0) (i + 1) - binomial (n - v) (i + 1)))
          (digits.getD (j - 1) 0)
      else liLoop n k digits fuel (i + 1) (j - 1) s (digits.getD (j - 1) 0)
    else s + (binomial n k - binomial (n - digits.headD 0) k)

/-- `Combinations::linear_index`. -/
def Combinations.linear_index (c : Combinations) : Option Nat :=
  if c.k = 0 then (if c.initial then some 0 else none)
  else if c.n < c.k ∨ c.n - c.k < c.digits.headD 0 then none
  else if c.k = 1 then some (c.digits.headD 0)
  else some (liLoop c.n c.k c.digits (c.k - 1) 0 (c.k - 1) 0 (c.digits.getD (c.k - 1) 0))

/-- The inner loop of `combinatorial_index`:
`while l >= b { l -= b; d_i += 1; b = binomial(n - 1 - d_i, i) }`.
This loop terminates only on in-range input (`l` below the number of
remaining combinations); it is modelled with fuel, `none` standing for
the divergent/panicking executions.  On the verified domain every
iteration strictly decreases `l`, so fuel `l + 1` is sufficient. -/
def ciInner (n i : Nat) : Nat → Nat → Nat → Option (Nat × Nat)
  | 0, _, _ => none
  | fuel + 1, l, d =>
    if binomial (n - 1 - d) i ≤ l then ciInner n i fuel (l - binomial (n - 1 - d) i) (d + 1)
    else some (l, d)

/-- The outer loop of `combinatorial_index` (`while i != 0`), structural
on `i`; at each step it runs the inner loop on `digits[j]`, then sets
`digits[j] = d_i` and `digits[j+1] = d_i + 1`. -/
def ciLoop (n : Nat) : Nat → Nat → Nat → List Nat → Option (List Nat × Nat)
  | 0, _, l, digits => some (digits, l)
  | i + 1, j, l, digits =>
    match ciInner n (i + 1) (l + 1) l (digits.getD j 0) with
    | none => none
    | some (l2, d2) => ciLoop n i (j + 1) l2 ((digits.set j d2).set (j + 1) (d2 + 1))

/-- `Combinations::combinatorial_index`.  After the outer loop the
source executes `digits[k - 1] += l`. -/
def Combinations.combinatorial_index (c : Combinations) (l : Nat) : Option (List Nat) :=
  if c.k = 0 then (if c.initial then some [] else none)
  else if c.n < c.k then some []
  else
    match ciLoop c.n (c.k - 1) 0 l (List.replicate c.k 0) with
    | none => none
    | some (digits, l2) => some (digits.set (c.k - 1) (digits.getD (c.k - 1) 0 + l2))

/-- The state after `m` calls of `next_combination_mut` on a fresh
enumerator. -/
def stateAt (n k : Nat) : Nat → Combinations
  | 0 => Combinations.new n k
  | m + 1 => (stateAt n k m).next_combination_mut

/-- Draining an enumerator through `next_combination` (the `Iterator`
implementation), collecting the pulled combinations; `fuel` bounds the
number of pulls. -/
def drain : Nat → Combinations → List (List Nat)
  | 0, _ => []
  | fuel + 1, c =>
    match c.next_combination with
    | (none, _) => []
    | (some d, c2) => d :: drain fuel c2

/-- The states reachable from some `Combinations::new` through
`next_combination_mut`, `next_combination` and `reset`. -/
inductive Reachable : Combinations → Prop
  | new (n k : Nat) : Reachable (Combinations.new n k)
  | step {c : Combinations} : Reachable c → Reachable c.next_combination_mut
  | reset {c : Combinations} : Reachable c → Reachable c.reset

/-- Strict lexicographic order on digit sequences, as a Boolean. -/
def lexLtb : List Nat → List Nat → Bool
  | _, [] => false
  | [], _ :: _ => true
  | a :: as, b :: bs => decide (a < b) || (decide (a = b) && lexLtb as bs)

/-- A well-formed tail of a combination: entries at least `lo`, strictly
increasing, with room below `n` for the remaining entries
(`d_i ≤ n - k + i` in positional form). -/
def ValidFrom (n : Nat) : Nat → List Nat → Prop
  | _, [] => True
  | lo, d :: rest => lo ≤ d ∧ d + rest.length < n ∧ ValidFrom n (d + 1) rest

/-- `d` is a strictly increasing `k`-sequence over `[0, n)`: the shape of
a combination as stated by the spec. -/
def IsCombo (n k : Nat) (d : List Nat) : Prop :=
  d.length = k ∧ d.Chain' (· < ·) ∧ ∀ x ∈ d, x < n

/-- `sumS n k d = Σ_{p < |d|} C(n - 1 - d_p, k - p)`: for a valid
combination `d` of length `k` this is the number of combinations
lexicographically strictly above `d` (so `rank d = C(n,k) - 1 - sumS`). -/
def sumS (n : Nat) : Nat → List Nat → Nat
  | _, [] => 0
  | k, d :: rest => Nat.choose (n - 1 - d) k + sumS n (k - 1) rest

/-- Specification-side form of the `count_remaining` loop: the digits are
consumed from position `j` down to `0`, i.e. the reversal of the prefix
`digits.take j`, with `v` the running tracked value. -/
def crT (n k : Nat) : List Nat → Nat → Nat
  | [], v => Nat.choose (n - v) k
  | w :: ws, v => Nat.choose (n - v) (k - (ws.length + 1)) + crT n k ws (w + 1)

/-- Specification-side form of the `linear_index` loop. -/
def liT (n k : Nat) (d0 : Nat) : List Nat → Nat → Nat
  | [], _ => Nat.choose n k - Nat.choose (n - d0) k
  | w :: ws, v =>
    (Nat.choose (n - 1 - w) (k - (ws.length + 1)) - Nat.choose (n - v) (k - (ws.length + 1)))
      + liT n k d0 ws w

/-! ### Correctness of `binomial` -/

lemma choose_62_31_eq : Nat.choose 62 31 = 465428353255261088 := by
  rw [Nat.choose_eq_descFactorial_div_factorial]
  rfl

lemma choose_le_middle_62 {m r : Nat} (hm : m ≤ 62) :
    Nat.choose m r ≤ Nat.choose 62 31 := by
  have h := Nat.choose_le_middle r 62
  norm_num at h
  exact le_trans (Nat.choose_le_choose r hm) h

lemma mul_choose_lt_U {m i : Nat} (hm : m + 1 ≤ 62) (hi : i + 1 ≤ 31) :
    (m + 1) * Nat.choose m i < U := by
  have h1 : (m + 1) * Nat.choose m i = Nat.choose (m + 1) (i + 1) * (i + 1) :=
    Nat.succ_mul_choose_eq m i
  calc (m + 1) * Nat.choose m i
      = Nat.choose (m + 1) (i + 1) * (i + 1) := h1
    _ ≤ Nat.choose 62 31 * 31 := Nat.mul_le_mul (choose_le_middle_62 hm) hi
    _ < U := by rw [choose_62_31_eq]; norm_num [U]

lemma bgo_eq (K : Nat) (hK : K ≤ 31) :
    ∀ fuel i m, K - i ≤ fuel → i ≤ K → i ≤ m → m + (K - i) ≤ 62 →
      bgo K fuel i m (Nat.choose m i) = Nat.choose (m + (K - i)) K := by
  intro fuel
  induction fuel with
  | zero =>
    intro i m hfuel hiK _ _
    have hi : i = K := by omega
    subst hi
    simp [bgo]
  | succ fuel ih =>
    intro i m hfuel hiK him hm
    by_cases hlt : i < K
    · have hm1 : (m + 1) % U = m + 1 := by
        apply Nat.mod_eq_of_lt
        have : m + 1 ≤ 62 := by omega
        calc m + 1 ≤ 62 := this
          _ < U := by norm_num [U]
      have hmul : (m + 1) * Nat.choose m i < U := mul_choose_lt_U (by omega) (by omega)
      have hdiv : (m + 1) * Nat.choose m i / (i + 1) = Nat.choose (m + 1) (i + 1) := by
        rw [Nat.succ_mul_choose_eq, Nat.mul_div_cancel _ (by omega)]
      have step : bgo K (fuel + 1) i m (Nat.choose m i)
          = bgo K fuel (i + 1) (m + 1) (Nat.choose (m + 1) (i + 1)) := by
        simp only [bgo, if_pos hlt, hm1, Nat.mod_eq_of_lt hmul, hdiv]
      rw [step, ih (i + 1) (m + 1) (by omega) (by omega) (by omega) (by omega)]
      congr 1
      omega
    · have hi : i = K := by omega
      subst hi
      simp [bgo, hlt]

lemma binomial_def (n k : Nat) :
    binomial n k = if n < k then 0
      else if k < n - k then bgo k k 0 (n - k) 1 else bgo (n - k) (n - k) 0 k 1 := by
  by_cases h : n < k
  · simp [binomial, h]
  · by_cases h2 : k < n - k <;> simp [binomial, h, h2]

/-- On the documented domain `n ≤ 62`, `binomial` computes the exact
binomial coefficient (in particular `0` when `k > n`). -/
theorem binomial_eq_choose {n : Nat} (k : Nat) (hn : n ≤ 62) :
    binomial n k = Nat.choose n k := by
  rw [binomial_def]
  by_cases h : n < k
  · rw [if_pos h, Nat.choose_eq_zero_of_lt h]
  · rw [if_neg h]
    have hkn : k ≤ n := by omega
    by_cases hs : k < n - k
    · rw [if_pos hs]
      have h1 := bgo_eq k (by omega) k 0 (n - k) (by omega) (by omega) (by omega) (by omega)
      rw [Nat.choose_zero_right] at h1
      rw [h1]
      congr 1
      omega
    · rw [if_neg hs]
      have h1 := bgo_eq (n - k) (by omega) (n - k) 0 k (by omega) (by omega) (by omega)
        (by omega)
      rw [Nat.choose_zero_right] at h1
      rw [h1]
      have : k + (n - k - 0) = n := by omega
      rw [this, Nat.choose_symm hkn]

/-! ### The lexicographic order on digit sequences -/

lemma lexLtb_irrefl : ∀ d : List Nat, lexLtb d d = false := by
  intro d
  induction d with
  | nil => rfl
  | cons x xs ih => simp [lexLtb, ih]

lemma lexLtb_trans : ∀ {a b c : List Nat},
    lexLtb a b = true → lexLtb b c = true → lexLtb a c = true := by
  intro a
  induction a with
  | nil =>
    intro b c hab hbc
    cases b with
    | nil => exact absurd hab (by simp [lexLtb])
    | cons y ys =>
      cases c with
      | nil => exact absurd hbc (by simp [lexLtb])
      | cons z zs => simp [lexLtb]
  | cons x xs ih =>
    intro b c hab hbc
    cases b with
    | nil => exact absurd hab (by simp [lexLtb])
    | cons y ys =>
      cases c with
      | nil => exact absurd hbc (by simp [lexLtb])
      | cons z zs =>
        simp only [lexLtb, Bool.or_eq_true, Bool.and_eq_true, decide_eq_true_eq] at hab hbc ⊢
        rcases hab with h1 | ⟨h1, h1'⟩ <;> rcases hbc with h2 | ⟨h2, h2'⟩
        · exact Or.inl (lt_trans h1 h2)
        · exact Or.inl (h2 ▸ h1)
        · exact Or.inl (h1 ▸ h2)
        · exact Or.inr ⟨h1.trans h2, ih h1' h2'⟩

lemma lexLtb_asymm : ∀ {a b : List Nat}, lexLtb a b = true → lexLtb b a = false := by
  intro a b hab
  by_contra h
  have hba : lexLtb b a = true := by
    cases hh : lexLtb b a
    · exact absurd hh h
    · rfl
  have := lexLtb_trans hab hba
  rw [lexLtb_irrefl] at this
  exact absurd this (by simp)

lemma lexLtb_total : ∀ a b : List Nat, a = b ∨ lexLtb a b = true ∨ lexLtb b a = true := by
  intro a
  induction a with
  | nil =>
    intro b
    cases b with
    | nil => exact Or.inl rfl
    | cons y ys => exact Or.inr (Or.inl (by simp [lexLtb]))
  | cons x xs ih =>
    intro b
    cases b with
    | nil => exact Or.inr (Or.inr (by simp [lexLtb]))
    | cons y ys =>
      rcases Nat.lt_trichotomy x y with h | h | h
      · exact Or.inr (Or.inl (by simp [lexLtb, h]))
      · rcases ih ys with h2 | h2 | h2
        · exact Or.inl (by rw [h, h2])
        · exact Or.inr (Or.inl (by simp [lexLtb, h, h2]))
        · exact Or.inr (Or.inr (by simp [lexLtb, h.symm, h2]))
      · exact Or.inr (Or.inr (by simp [lexLtb, h]))

lemma lexLtb_append_left : ∀ (u a b : List Nat),
    lexLtb a b = true → lexLtb (u ++ a) (u ++ b) = true := by
  intro u
  induction u with
  | nil => intro a b h; simpa using h
  | cons x xs ih => intro a b h; simp [lexLtb, ih a b h]

/-! ### Well-formed combinations -/

lemma VF_mono_lo {n : Nat} : ∀ {d : List Nat} {lo lo' : Nat},
    ValidFrom n lo d → lo' ≤ lo → ValidFrom n lo' d := by
  intro d
  cases d with
  | nil => intro lo lo' _ _; trivial
  | cons x xs => intro lo lo' h hle; exact ⟨le_trans hle h.1, h.2.1, h.2.2⟩

lemma VF_mem {n : Nat} : ∀ (d : List Nat) (lo : Nat),
    ValidFrom n lo d → ∀ x ∈ d, lo ≤ x ∧ x < n := by
  intro d
  induction d with
  | nil => intro lo _ x hx; cases hx
  | cons y ys ih =>
    intro lo h x hx
    have h1 := h.1
    have h2 := h.2.1
    rcases List.mem_cons.mp hx with rfl | hx
    · exact ⟨h1, by omega⟩
    · have := ih (y + 1) h.2.2 x hx
      exact ⟨by omega, this.2⟩

lemma VF_chain {n : Nat} : ∀ {d : List Nat} {lo : Nat},
    ValidFrom n lo d → d.Chain' (· < ·) := by
  intro d
  induction d with
  | nil => intro lo _; exact List.chain'_nil
  | cons y ys ih =>
    intro lo h
    cases ys with
    | nil => exact List.chain'_singleton y
    | cons z zs =>
      exact List.Chain'.cons (by have := h.2.2.1; omega) (ih h.2.2)

lemma VF_isCombo {n : Nat} {d : List Nat} {lo : Nat} (h : ValidFrom n lo d) :
    IsCombo n d.length d :=
  ⟨rfl, VF_chain h, fun x hx => (VF_mem d lo h x hx).2⟩

/-- The jump target of the first digit after a prefix `u`: the last entry
of `u` plus one (or `lo` when `u` is empty). -/
def nextLo (lo : Nat) : List Nat → Nat
  | [] => lo
  | x :: xs => nextLo (x + 1) xs

lemma VF_append {n : Nat} : ∀ (u w : List Nat) (lo : Nat),
    ValidFrom n lo (u ++ w) ↔
      ValidFrom (n - w.length) lo u ∧ ValidFrom n (nextLo lo u) w := by
  intro u
  induction u with
  | nil => intro w lo; simp [ValidFrom, nextLo]
  | cons x xs ih =>
    intro w lo
    constructor
    · intro h
      have h1 : lo ≤ x := h.1
      have h2 : x + xs.length + w.length < n := by
        have := h.2.1
        simpa [Nat.add_assoc] using this
      have h3 := (ih w (x + 1)).mp h.2.2
      exact ⟨⟨h1, by omega, h3.1⟩, h3.2⟩
    · intro h
      have h1 : lo ≤ x := h.1.1
      have h2 : x + xs.length < n - w.length := h.1.2.1
      have h4 := (ih w (x + 1)).mpr ⟨h.1.2.2, h.2⟩
      refine ⟨h1, ?_, h4⟩
      show x + (xs ++ w).length < n
      have hl : (xs ++ w).length = xs.length + w.length := by simp
      omega

lemma VF_range' : ∀ {K a n : Nat}, a + K ≤ n → ValidFrom n a (List.range' a K) := by
  intro K
  induction K with
  | zero => intro a n _; trivial
  | succ K ih =>
    intro a n h
    refine ⟨le_refl a, ?_, VF_mono_lo (ih (by omega)) (by omega)⟩
    simp only [List.length_range']
    omega

lemma nextLo_append (lo : Nat) : ∀ (u : List Nat) (x : Nat),
    nextLo lo (u ++ [x]) = x + 1 := by
  intro u
  induction u generalizing lo with
  | nil => intro x; rfl
  | cons y ys ih => intro x; simpa [nextLo] using ih (y + 1) x

/-! ### The counting sum `sumS` -/

lemma sumS_append (n : Nat) : ∀ (u w : List Nat) (k : Nat),
    sumS n k (u ++ w) = sumS n k u + sumS n (k - u.length) w := by
  intro u
  induction u with
  | nil => intro w k; simp [sumS]
  | cons x xs ih =>
    intro w k
    show Nat.choose (n - 1 - x) k + sumS n (k - 1) (xs ++ w)
      = Nat.choose (n - 1 - x) k + sumS n (k - 1) xs + sumS n (k - (x :: xs).length) w
    rw [ih w (k - 1)]
    have h : k - 1 - xs.length = k - (x :: xs).length := by
      simp only [List.length_cons]
      omega
    rw [h, Nat.add_assoc]

lemma choose_pred_pascal {m r : Nat} (hm : 1 ≤ m) :
    Nat.choose m (r + 1) = Nat.choose (m - 1) r + Nat.choose (m - 1) (r + 1) := by
  have h : m = (m - 1) + 1 := by omega
  rw [h, Nat.choose_succ_succ' (m - 1) r]
  congr 1 <;> omega

lemma sumS_range' : ∀ (K a n : Nat), a + K ≤ n →
    sumS n K (List.range' a K) + 1 = Nat.choose (n - a) K := by
  intro K
  induction K with
  | zero => intro a n _; simp [sumS]
  | succ K ih =>
    intro a n h
    have hrec := ih (a + 1) n (by omega)
    simp only [List.range'_succ, sumS]
    have h1 : n - 1 - a = n - (a + 1) := by omega
    have h2 : K + 1 - 1 = K := by omega
    rw [h1, h2]
    have hp : Nat.choose (n - a) (K + 1)
        = Nat.choose (n - a - 1) K + Nat.choose (n - a - 1) (K + 1) :=
      choose_pred_pascal (by omega)
    have h3 : n - a - 1 = n - (a + 1) := by omega
    rw [hp, h3]
    omega

lemma sumS_zero_of_tight : ∀ (M K a n : Nat), M ≤ K → n < a + K + 1 →
    sumS n K (List.range' a M) = 0 := by
  intro M
  induction M with
  | zero => intro K a n _ _; simp [sumS]
  | succ M ih =>
    intro K a n hMK hn
    simp only [List.range'_succ, sumS]
    rw [ih (K - 1) (a + 1) n (by omega) (by omega)]
    have : n - 1 - a < K := by omega
    simp [Nat.choose_eq_zero_of_lt this]

lemma TS_bound (n : Nat) : ∀ (d : List Nat) (lo : Nat), ValidFrom n lo d →
    sumS n d.length d + 1 ≤ Nat.choose (n - lo) d.length := by
  intro d
  induction d with
  | nil => intro lo _; simp [sumS]
  | cons x xs ih =>
    intro lo h
    have h1 := h.1
    have h2 := h.2.1
    have hrec := ih (x + 1) h.2.2
    simp only [List.length_cons, sumS]
    have hx : x + 1 + xs.length ≤ n := by omega
    have hp : Nat.choose (n - x) (xs.length + 1)
        = Nat.choose (n - x - 1) xs.length + Nat.choose (n - x - 1) (xs.length + 1) :=
      choose_pred_pascal (by omega)
    have hmono : Nat.choose (n - x) (xs.length + 1) ≤ Nat.choose (n - lo) (xs.length + 1) :=
      Nat.choose_le_choose _ (by omega)
    have e1 : n - 1 - x = n - x - 1 := by omega
    have e2 : xs.length + 1 - 1 = xs.length := by omega
    rw [e1, e2]
    have e3 : n - (x + 1) = n - x - 1 := by omega
    rw [e3] at hrec
    omega

/-! ### `sumS` is strictly antitone in the lexicographic order -/

lemma sumS_lt_of_lexLt {n : Nat} : ∀ (a b : List Nat) (lo : Nat),
    ValidFrom n lo a → ValidFrom n lo b → a.length = b.length →
    lexLtb a b = true → sumS n b.length b < sumS n a.length a := by
  intro a
  induction a with
  | nil =>
    intro b lo _ _ hlen hlex
    cases b with
    | nil => simp [lexLtb] at hlex
    | cons y ys => simp at hlen
  | cons x xs ih =>
    intro b lo ha hb hlen hlex
    cases b with
    | nil => simp [lexLtb] at hlex
    | cons y ys =>
      simp only [lexLtb, Bool.or_eq_true, Bool.and_eq_true, decide_eq_true_eq] at hlex
      simp only [List.length_cons] at hlen ⊢
      rcases hlex with hxy | ⟨hxy, hlex⟩
      · -- strictly smaller head: every tail of b is dominated
        have hyb : y + ys.length < n := hb.2.1
        have hTS := TS_bound n ys (y + 1) hb.2.2
        have e0 : n - (y + 1) = n - y - 1 := by omega
        rw [e0] at hTS
        have hlene : ys.length + 1 = xs.length + 1 := by omega
        have hp : Nat.choose (n - y) (ys.length + 1)
            = Nat.choose (n - y - 1) ys.length + Nat.choose (n - y - 1) (ys.length + 1) :=
          choose_pred_pascal (by omega)
        have hmono : Nat.choose (n - y) (ys.length + 1)
            ≤ Nat.choose (n - 1 - x) (ys.length + 1) :=
          Nat.choose_le_choose _ (by omega)
        have hgoal1 : sumS n (ys.length + 1) (y :: ys)
            = Nat.choose (n - 1 - y) (ys.length + 1) + sumS n ys.length ys := by
          simp [sumS]
        have hgoal2 : sumS n (ys.length + 1) (x :: xs)
            = Nat.choose (n - 1 - x) (ys.length + 1) + sumS n ys.length xs := by
          simp [sumS]
        rw [hgoal1, ← hlene, hgoal2]
        have e1 : n - 1 - y = n - y - 1 := by omega
        rw [e1]
        omega
      · -- equal heads: recurse on the tails
        subst hxy
        have hrec := ih ys (x + 1) ha.2.2 hb.2.2 (by omega) hlex
        simp only [sumS, Nat.add_sub_cancel]
        have e2 : xs.length = ys.length := by omega
        rw [e2] at hrec ⊢
        omega

/-! ### Closed forms for the rank and remaining-count loops -/

lemma crT_spec (n k : Nat) : ∀ (r : List Nat) (v : Nat),
    crT n k r v = Nat.choose (n - v) (k - r.length) + sumS n k r.reverse := by
  intro r
  induction r with
  | nil => intro v; simp [crT, sumS]
  | cons w ws ih =>
    intro v
    simp only [crT, ih (w + 1), List.reverse_cons, List.length_cons]
    rw [sumS_append n ws.reverse [w] k]
    simp only [sumS, List.length_reverse]
    have e1 : n - (w + 1) = n - 1 - w := by omega
    rw [e1]
    omega

lemma headD_concat {α : Type} (l : List α) (a b : α) : (l ++ [a]).headD b = l.headD a := by
  cases l <;> simp

lemma liT_spec (n k d0 : Nat) : ∀ (r : List Nat) (v : Nat),
    (r.reverse ++ [v]).Chain' (· < ·) →
    (∀ x ∈ r, x < n) →
    r.length < k →
    r.reverse.headD v = d0 →
    liT n k d0 r v + sumS n k r.reverse + Nat.choose (n - v) (k - r.length)
      = Nat.choose n k := by
  intro r
  induction r with
  | nil =>
    intro v _ _ _ hh
    simp only [List.reverse_nil, List.headD] at hh
    subst hh
    simp only [liT, sumS, List.length_nil, Nat.sub_zero]
    have hmono : Nat.choose (n - v) k ≤ Nat.choose n k := Nat.choose_le_choose _ (by omega)
    omega
  | cons w ws ih =>
    intro v hchain hmem hlen hh
    have hrev : (w :: ws).reverse = ws.reverse ++ [w] := List.reverse_cons w ws
    rw [hrev] at hchain hh
    rw [headD_concat] at hh
    have hchain2 : ((ws.reverse ++ [w]) ++ [v]).Chain' (· < ·) := by
      simpa [List.append_assoc] using hchain
    have hsplit := List.chain'_append.mp hchain2
    have hwchain : (ws.reverse ++ [w]).Chain' (· < ·) := hsplit.1
    have hwv : w < v := by
      have := hsplit.2.2 w (by simp) v (by simp)
      exact this
    have hwn : w < n := hmem w (List.mem_cons_self w ws)
    have ihh := ih w hwchain (fun x hx => hmem x (List.mem_cons_of_mem w hx)) (by
      simp only [List.length_cons] at hlen
      omega) hh
    simp only [liT, List.length_cons]
    rw [hrev, sumS_append n ws.reverse [w] k]
    simp only [sumS, List.length_reverse]
    have e1 : k - ws.length = k - (ws.length + 1) + 1 := by
      simp only [List.length_cons] at hlen
      omega
    have e2 : n - w - 1 = n - 1 - w := by omega
    have hp : Nat.choose (n - w) (k - ws.length)
        = Nat.choose (n - 1 - w) (k - (ws.length + 1))
          + Nat.choose (n - 1 - w) (k - ws.length) := by
      rw [e1, @choose_pred_pascal (n - w) (k - (ws.length + 1)) (by omega), e2]
    have hmono : Nat.choose (n - v) (k - (ws.length + 1))
        ≤ Nat.choose (n - 1 - w) (k - (ws.length + 1)) :=
      Nat.choose_le_choose _ (by omega)
    omega

/-! ### Bridging the index loops to their specification forms -/

lemma chain_getD_lt {d : List Nat} (h : d.Chain' (· < ·)) :
    ∀ p, p + 1 < d.length → d.getD p 0 < d.getD (p + 1) 0 := by
  intro p hp
  have h2 := List.chain'_iff_get.mp h p (by omega)
  rw [List.getD_eq_get d 0 (by omega), List.getD_eq_get d 0 (by omega)]
  exact h2

lemma take_succ_reverse (d : List Nat) (j : Nat) (h : j < d.length) :
    (d.take (j + 1)).reverse = d.getD j 0 :: (d.take j).reverse := by
  rw [← List.take_concat_get' d j h, List.reverse_concat']
  rw [List.getD_eq_getElem d 0 h]

lemma crLoop_bridge (n k : Nat) (hn : n ≤ 62) (d : List Nat) (hlen : d.length = k)
    (hchain : ∀ p, p + 1 < d.length → d.getD p 0 < d.getD (p + 1) 0) :
    ∀ (j : Nat), j ≤ k - 1 →
    ∀ (fuel s v : Nat), j ≤ fuel → (1 ≤ j → d.getD (j - 1) 0 < v) →
      crLoop n k d fuel (k - 1 - j) j s v = s + crT n k ((d.take j).reverse) v := by
  intro j
  induction j with
  | zero =>
    intro _ fuel s v _ _
    have hb : binomial (n - v) k = Nat.choose (n - v) k := binomial_eq_choose k (by omega)
    cases fuel with
    | zero => simp [crLoop, crT, hb]
    | succ f => simp [crLoop, crT, hb]
  | succ j ih =>
    intro hj fuel s v hfuel hv
    cases fuel with
    | zero => omega
    | succ f =>
      have hguard : k - 1 - (j + 1) < k - 1 := by omega
      have hjlen : j < d.length := by omega
      have hw : d.getD j 0 < v := hv (by omega)
      have hne : d.getD j 0 ≠ v := Nat.ne_of_lt hw
      have e1 : k - 1 - (j + 1) + 1 = k - (j + 1) := by omega
      have step : crLoop n k d (f + 1) (k - 1 - (j + 1)) (j + 1) s v
          = crLoop n k d f (k - (j + 1)) j
              (s + binomial (n - v) (k - (j + 1))) (d.getD j 0 + 1) := by
        simp only [crLoop, Nat.add_sub_cancel, if_pos hguard, if_pos hne, e1]
      rw [step]
      have e2 : k - (j + 1) = k - 1 - j := by omega
      rw [e2]
      have hvnext : 1 ≤ j → d.getD (j - 1) 0 < d.getD j 0 + 1 := by
        intro hj1
        have := hchain (j - 1) (by omega)
        have e3 : j - 1 + 1 = j := by omega
        rw [e3] at this
        omega
      rw [ih (by omega) f _ _ (by omega) hvnext]
      rw [take_succ_reverse d j hjlen]
      have hwsl : ((d.take j).reverse).length = j := by
        simp only [List.length_reverse, List.length_take]
        omega
      simp only [crT, hwsl]
      rw [binomial_eq_choose _ (by omega)]
      have e4 : k - (j + 1) = k - 1 - j := by omega
      rw [e4]
      omega

lemma liLoop_bridge (n k : Nat) (hn : n ≤ 62) (d : List Nat) (hlen : d.length = k)
    (hchain : ∀ p, p + 1 < d.length → d.getD p 0 < d.getD (p + 1) 0) :
    ∀ (j : Nat), j ≤ k - 1 →
    ∀ (fuel s v : Nat), j ≤ fuel → (1 ≤ j → d.getD (j - 1) 0 < v) →
      liLoop n k d fuel (k - 1 - j) j s v = s + liT n k (d.headD 0) ((d.take j).reverse) v := by
  intro j
  induction j with
  | zero =>
    intro _ fuel s v _ _
    have hb1 : binomial n k = Nat.choose n k := binomial_eq_choose k (by omega)
    have hb2 : binomial (n - d.headD 0) k = Nat.choose (n - d.headD 0) k :=
      binomial_eq_choose k (by omega)
    have hexit : ∀ fuel, liLoop n k d fuel (k - 1) 0 s v
        = s + (binomial n k - binomial (n - d.headD 0) k) := by
      intro fuel
      cases fuel with
      | zero => rfl
      | succ f => simp only [liLoop, if_neg (lt_irrefl (k - 1))]
    have e0 : k - 1 - 0 = k - 1 := rfl
    rw [e0, hexit, hb1, hb2]
    simp only [List.take_zero, List.reverse_nil, liT]
  | succ j ih =>
    intro hj fuel s v hfuel hv
    cases fuel with
    | zero => omega
    | succ f =>
      have hguard : k - 1 - (j + 1) < k - 1 := by omega
      have hjlen : j < d.length := by omega
      have hw : d.getD j 0 < v := hv (by omega)
      have hne : d.getD j 0 ≠ v := Nat.ne_of_lt hw
      have e1 : k - 1 - (j + 1) + 1 = k - (j + 1) := by omega
      have step : liLoop n k d (f + 1) (k - 1 - (j + 1)) (j + 1) s v
          = liLoop n k d f (k - (j + 1)) j
              (s + (binomial (n - 1 - d.getD j 0) (k - (j + 1))
                - binomial (n - v) (k - (j + 1))))
              (d.getD j 0) := by
        simp only [liLoop, Nat.add_sub_cancel, if_pos hguard, if_pos hne, e1]
      rw [step]
      have e2 : k - (j + 1) = k - 1 - j := by omega
      rw [e2]
      have hvnext : 1 ≤ j → d.getD (j - 1) 0 < d.getD j 0 := by
        intro hj1
        have := hchain (j - 1) (by omega)
        have e3 : j - 1 + 1 = j := by omega
        rw [e3] at this
        exact this
      rw [ih (by omega) f _ _ (by omega) hvnext]
      rw [take_succ_reverse d j hjlen]
      have hwsl : ((d.take j).reverse).length = j := by
        simp only [List.length_reverse, List.length_take]
        omega
      simp only [liT, hwsl]
      rw [binomial_eq_choose _ (by omega), binomial_eq_choose _ (by omega)]
      have e4 : k - (j + 1) = k - 1 - j := by omega
      rw [e4]
      omega

/-! ### `count_remaining` and `linear_index` on well-formed states -/

lemma range'_getD {a K p : Nat} (h : p < K) : (List.range' a K).getD p 0 = a + p := by
  rw [List.getD_eq_getElem _ 0 (by simp [List.length_range']; omega)]
  simp [List.getElem_range']

lemma getD_mem {d : List Nat} {p : Nat} (h : p < d.length) : d.getD p 0 ∈ d := by
  rw [List.getD_eq_getElem _ 0 h]
  exact List.getElem_mem h

lemma take_concat_getD (d : List Nat) (j : Nat) (h : j < d.length) :
    d.take j ++ [d.getD j 0] = d.take (j + 1) := by
  rw [List.getD_eq_getElem _ 0 h]
  exact List.take_concat_get' d j h

lemma headD_take {d : List Nat} {j : Nat} (hj : 1 ≤ j) (x : Nat) :
    (d.take j).headD x = d.headD x := by
  cases d with
  | nil => simp
  | cons y ys =>
    cases j with
    | zero => omega
    | succ j => simp [List.take]

/-- On a well-formed non-exhausted state, `count_remaining` computes
`sumS + 1`, the number of combinations from the current one on. -/
lemma count_remaining_eq (c : Combinations) (h62 : c.n ≤ 62) (hk1 : 1 ≤ c.k)
    (hkn : c.k ≤ c.n) (hlen : c.digits.length = c.k) (hvf : ValidFrom c.n 0 c.digits) :
    c.count_remaining = sumS c.n c.k c.digits + 1 := by
  obtain ⟨n, k, d, b⟩ := c
  simp only at h62 hk1 hkn hlen hvf ⊢
  unfold Combinations.count_remaining
  simp only
  rw [if_neg (by omega), if_neg (by omega)]
  by_cases hk2 : k = 1
  · subst hk2
    rw [if_pos rfl]
    obtain ⟨a, rfl⟩ := List.length_eq_one.mp hlen
    have ha : a < n := (VF_mem [a] 0 hvf a (by simp)).2
    simp only [sumS, List.headD, List.length_nil, Nat.choose_one_right]
    omega
  · rw [if_neg hk2]
    have hk2' : 2 ≤ k := by omega
    have hchain := chain_getD_lt (VF_chain hvf)
    have hlast : d.getD (k - 1) 0 < n := by
      have := VF_mem d 0 hvf (d.getD (k - 1) 0) (getD_mem (by omega))
      exact this.2
    have hprev : 1 ≤ k - 1 → d.getD (k - 1 - 1) 0 < d.getD (k - 1) 0 := by
      intro _
      have := hchain (k - 2) (by omega)
      have e : k - 2 + 1 = k - 1 := by omega
      rw [e] at this
      have e2 : k - 1 - 1 = k - 2 := by omega
      rw [e2]
      exact this
    have hbr := crLoop_bridge n k h62 d hlen hchain (k - 1) (le_refl _) (k - 1) 0
      (d.getD (k - 1) 0) (le_refl _) hprev
    have e0 : k - 1 - (k - 1) = 0 := by omega
    rw [e0] at hbr
    rw [hbr, crT_spec]
    have hrl : ((d.take (k - 1)).reverse).length = k - 1 := by
      simp only [List.length_reverse, List.length_take]
      omega
    rw [hrl, List.reverse_reverse]
    have e1 : k - (k - 1) = 1 := by omega
    rw [e1, Nat.choose_one_right]
    have hsplit : d.take (k - 1) ++ [d.getD (k - 1) 0] = d := by
      rw [take_concat_getD d (k - 1) (by omega)]
      have e2 : k - 1 + 1 = k := by omega
      rw [e2, ← hlen, List.take_length]
    have hS : sumS n k d = sumS n k (d.take (k - 1))
        + Nat.choose (n - 1 - d.getD (k - 1) 0) (k - (d.take (k - 1)).length) := by
      conv_lhs => rw [← hsplit]
      rw [sumS_append]
      simp [sumS]
    have htl : (d.take (k - 1)).length = k - 1 := by
      simp only [List.length_take]
      omega
    rw [htl, e1, Nat.choose_one_right] at hS
    omega

/-- `count_remaining` is `0` on the exhausted sentinel state
`digits = [n-k+1, …, n]`. -/
lemma count_remaining_sentinel (c : Combinations) (h62 : c.n ≤ 62) (hk1 : 1 ≤ c.k)
    (hkn : c.k ≤ c.n) (hd : c.digits = List.range' (c.n - c.k + 1) c.k) :
    c.count_remaining = 0 := by
  obtain ⟨n, k, d, b⟩ := c
  simp only at h62 hk1 hkn hd ⊢
  subst hd
  unfold Combinations.count_remaining
  simp only
  rw [if_neg (by omega), if_neg (by omega)]
  by_cases hk2 : k = 1
  · subst hk2
    rw [if_pos rfl]
    simp only [List.range'_succ, List.headD]
    omega
  · rw [if_neg hk2]
    have hk2' : 2 ≤ k := by omega
    have hlen : (List.range' (n - k + 1) k).length = k := by simp [List.length_range']
    have hchain : ∀ p, p + 1 < (List.range' (n - k + 1) k).length →
        (List.range' (n - k + 1) k).getD p 0 < (List.range' (n - k + 1) k).getD (p + 1) 0 := by
      intro p hp
      rw [hlen] at hp
      rw [range'_getD (by omega), range'_getD (by omega)]
      omega
    have hprev : 1 ≤ k - 1 → (List.range' (n - k + 1) k).getD (k - 1 - 1) 0
        < (List.range' (n - k + 1) k).getD (k - 1) 0 := by
      intro _
      rw [range'_getD (by omega), range'_getD (by omega)]
      omega
    have hbr := crLoop_bridge n k h62 (List.range' (n - k + 1) k) hlen hchain
      (k - 1) (le_refl _) (k - 1) 0 ((List.range' (n - k + 1) k).getD (k - 1) 0)
      (le_refl _) hprev
    have e0 : k - 1 - (k - 1) = 0 := by omega
    rw [e0] at hbr
    rw [hbr, crT_spec]
    have hlastv : (List.range' (n - k + 1) k).getD (k - 1) 0 = n := by
      rw [range'_getD (by omega)]
      omega
    have htake : (List.range' (n - k + 1) k).take (k - 1) = List.range' (n - k + 1) (k - 1) := by
      have e1 : List.range' (n - k + 1) (k - 1) ++ List.range' (n - k + 1 + (k - 1)) 1
          = List.range' (n - k + 1) (1 + (k - 1)) := List.range'_append_1 _ _ _
      have e2 : 1 + (k - 1) = k := by omega
      rw [e2] at e1
      rw [← e1]
      exact List.take_left' (by simp [List.length_range'])
    have hrl : (((List.range' (n - k + 1) k).take (k - 1)).reverse).length = k - 1 := by
      simp only [List.length_reverse, List.length_take, hlen]
      omega
    rw [hrl, List.reverse_reverse, hlastv, htake]
    rw [sumS_zero_of_tight (k - 1) k (n - k + 1) n (by omega) (by omega)]
    have e1 : k - (k - 1) = 1 := by omega
    rw [e1]
    simp

lemma headD_irrel {α : Type} {d : List α} (h : d ≠ []) (a b : α) : d.headD a = d.headD b := by
  cases d with
  | nil => exact absurd rfl h
  | cons x xs => rfl

lemma headD_eq_getD_zero {α : Type} [Inhabited α] (d : List α) (h : d ≠ []) :
    d.headD default = d.getD 0 default := by
  cases d with
  | nil => exact absurd rfl h
  | cons x xs => rfl

/-- On a well-formed non-exhausted state, `linear_index` returns the rank
`C(n,k) - 1 - sumS`. -/
lemma linear_index_eq (c : Combinations) (h62 : c.n ≤ 62) (hk1 : 1 ≤ c.k)
    (hkn : c.k ≤ c.n) (hlen : c.digits.length = c.k) (hvf : ValidFrom c.n 0 c.digits) :
    c.linear_index = some (Nat.choose c.n c.k - 1 - sumS c.n c.k c.digits) := by
  obtain ⟨n, k, d, b⟩ := c
  simp only at h62 hk1 hkn hlen hvf ⊢
  have hdne : d ≠ [] := by
    intro h
    subst h
    simp at hlen
    omega
  have hd0 : d.headD 0 + (k - 1) < n := by
    cases d with
    | nil => exact absurd rfl hdne
    | cons x xs =>
      have := hvf.2.1
      simp only [List.headD]
      simp only [List.length_cons] at hlen
      omega
  unfold Combinations.linear_index
  simp only
  rw [if_neg (by omega), if_neg (by push_neg; constructor <;> omega)]
  by_cases hk2 : k = 1
  · subst hk2
    rw [if_pos rfl]
    obtain ⟨a, rfl⟩ := List.length_eq_one.mp hlen
    have ha : a < n := (VF_mem [a] 0 hvf a (by simp)).2
    simp only [sumS, List.headD, List.length_nil, Nat.choose_one_right]
    congr 1
    omega
  · rw [if_neg hk2]
    have hk2' : 2 ≤ k := by omega
    have hchain := chain_getD_lt (VF_chain hvf)
    have hprev : 1 ≤ k - 1 → d.getD (k - 1 - 1) 0 < d.getD (k - 1) 0 := by
      intro _
      have := hchain (k - 2) (by omega)
      have e : k - 2 + 1 = k - 1 := by omega
      rw [e] at this
      have e2 : k - 1 - 1 = k - 2 := by omega
      rw [e2]
      exact this
    have hbr := liLoop_bridge n k h62 d hlen hchain (k - 1) (le_refl _) (k - 1) 0
      (d.getD (k - 1) 0) (le_refl _) hprev
    have e0 : k - 1 - (k - 1) = 0 := by omega
    rw [e0] at hbr
    rw [hbr]
    have hsplit : d.take (k - 1) ++ [d.getD (k - 1) 0] = d := by
      rw [take_concat_getD d (k - 1) (by omega)]
      have e2 : k - 1 + 1 = k := by omega
      rw [e2, ← hlen, List.take_length]
    have hrl : ((d.take (k - 1)).reverse).length = k - 1 := by
      simp only [List.length_reverse, List.length_take]
      omega
    have hspec := liT_spec n k (d.headD 0) ((d.take (k - 1)).reverse) (d.getD (k - 1) 0)
      (by rw [List.reverse_reverse, hsplit]; exact VF_chain hvf)
      (by
        intro x hx
        rw [List.mem_reverse] at hx
        exact (VF_mem d 0 hvf x (List.mem_of_mem_take hx)).2)
      (by omega)
      (by
        rw [List.reverse_reverse]
        rw [headD_irrel (by
          intro h
          have := congrArg List.length h
          simp only [List.length_take, List.length_nil] at this
          omega) _ 0]
        exact headD_take (by omega) 0)
    rw [hrl] at hspec
    have e1 : k - (k - 1) = 1 := by omega
    rw [e1, Nat.choose_one_right, List.reverse_reverse] at hspec
    have hlast : d.getD (k - 1) 0 < n := by
      have := VF_mem d 0 hvf (d.getD (k - 1) 0) (getD_mem (by omega))
      exact this.2
    have hS : sumS n k d = sumS n k (d.take (k - 1))
        + Nat.choose (n - 1 - d.getD (k - 1) 0) (k - (d.take (k - 1)).length) := by
      conv_lhs => rw [← hsplit]
      rw [sumS_append]
      simp [sumS]
    have htl : (d.take (k - 1)).length = k - 1 := by
      simp only [List.length_take]
      omega
    rw [htl, e1, Nat.choose_one_right] at hS
    congr 1
    omega

/-- On the exhausted sentinel (`digits[0] = n - k + 1`), `linear_index`
is `none`. -/
lemma linear_index_none_of_exhausted (c : Combinations) (hk1 : 1 ≤ c.k)
    (hkn : c.k ≤ c.n) (hd : c.n - c.k < c.digits.headD 0) :
    c.linear_index = none := by
  unfold Combinations.linear_index
  rw [if_neg (by omega), if_pos (Or.inr hd)]

/-! ### The successor step: carry and fill loops -/

lemma range'_concat (a M : Nat) : List.range' a (M + 1) = List.range' a M ++ [a + M] := by
  have h := List.range'_append_1 a M 1
  have e : 1 + M = M + 1 := by omega
  rw [e] at h
  rw [← h]
  simp [List.range'_succ]

lemma set_append_cons {α : Type} (u : List α) (x y : α) (r : List α) :
    (u ++ x :: r).set u.length y = u ++ y :: r := by
  rw [List.set_append_right _ _ (le_refl _)]
  simp

lemma getD_append_cons (u : List Nat) (x : Nat) (r : List Nat) :
    (u ++ x :: r).getD u.length 0 = x := by
  rw [List.getD_append_right _ _ _ _ (le_refl _)]
  simp

lemma getD_set_self (ds : List Nat) (j v : Nat) (h : j < ds.length) :
    (ds.set j v).getD j 0 = v := by
  rw [List.getD_eq_getElem _ 0 (by simpa using h)]
  exact List.getElem_set_self (by simpa using h)

lemma take_succ_set : ∀ (ds : List Nat) (j v : Nat), j < ds.length →
    (ds.set j v).take (j + 1) = ds.take j ++ [v] := by
  intro ds
  induction ds with
  | nil => intro j v h; simp at h
  | cons a as ih =>
    intro j v h
    cases j with
    | zero => simp
    | succ j =>
      simp only [List.set, List.take, List.cons_append]
      rw [ih j v (by simpa using h)]

lemma take_set_of_le (ds : List Nat) (j v p : Nat) (h : p ≤ j) :
    (ds.set j v).take p = ds.take p := by
  apply List.ext_getElem
  · simp [List.length_take]
  · intro i h1 h2
    simp only [List.getElem_take]
    rw [List.getElem_set]
    rw [if_neg (by
      simp only [List.length_take] at h1
      omega)]

lemma fillLoop_eq (k : Nat) : ∀ (fuel j : Nat) (ds : List Nat), ds.length = k → 1 ≤ j →
    k - j ≤ fuel →
    fillLoop k fuel j ds = ds.take j ++ List.range' (ds.getD (j - 1) 0 + 1) (k - j) := by
  intro fuel
  induction fuel with
  | zero =>
    intro j ds hlen _ hf
    have hj : k ≤ j := by omega
    simp only [fillLoop]
    have e : k - j = 0 := by omega
    rw [e]
    have ht : ds.length ≤ j := by omega
    simp [List.take_of_length_le ht]
  | succ fuel ih =>
    intro j ds hlen hj hf
    by_cases hjk : j < k
    · have hstep : fillLoop k (fuel + 1) j ds
          = fillLoop k fuel (j + 1) (ds.set j (ds.getD (j - 1) 0 + 1)) := by
        simp only [fillLoop, if_pos hjk]
      rw [hstep, ih (j + 1) _ (by simp [hlen]) (by omega) (by omega)]
      simp only [Nat.add_sub_cancel]
      have hjlt : j < ds.length := by omega
      rw [getD_set_self ds j _ hjlt, take_succ_set ds j _ hjlt]
      have e2 : k - j = (k - (j + 1)) + 1 := by omega
      rw [e2, List.range'_succ]
      simp [List.append_assoc]
    · have hstep : fillLoop k (fuel + 1) j ds = ds := by
        simp only [fillLoop, if_neg hjk]
      rw [hstep]
      have e : k - j = 0 := by omega
      rw [e]
      have ht : ds.length ≤ j := by omega
      simp [List.take_of_length_le ht]

lemma carryLoop_exit (len : Nat) (j : Nat) (ds : List Nat)
    (h : j = 0 ∨ ds.getD j 0 ≠ len + j) : carryLoop len j ds = (ds, j) := by
  cases j with
  | zero => rfl
  | succ j2 =>
    rcases h with h | h
    · exact absurd h (Nat.succ_ne_zero j2)
    · simp only [carryLoop, if_neg h]

/-- The carry loop on a state whose maxed suffix has already been partly
incremented: `M` middle (still maxed) digits remain, `t` digits have been
incremented. It walks down to the first non-maxed digit `x`, increments
it, and stops there. -/
lemma carry_chain (n k : Nat) (u : List Nat) (x : Nat) :
    ∀ (M t : Nat), 1 ≤ t → u.length + 1 + M + t = k → k ≤ n → x + M + t + 2 ≤ n →
    carryLoop (n - k + 1) (u.length + 1 + M)
        (u ++ x :: (List.range' (n - (M + t)) M ++ List.range' (n - t + 1) t))
      = (u ++ (x + 1) :: List.range' (n - (M + t) + 1) (M + t), u.length) := by
  intro M
  induction M with
  | zero =>
    intro t ht hk hkn hx
    simp only [List.range'_zero, List.nil_append, Nat.add_zero, Nat.zero_add]
    have hgd : (u ++ x :: List.range' (n - t + 1) t).getD (u.length + 1) 0 = n - t + 1 := by
      rw [List.getD_append_right _ _ _ _ (by omega)]
      have e : u.length + 1 - u.length = 1 := by omega
      rw [e]
      have e2 : (1 : Nat) = 0 + 1 := rfl
      rw [List.getD_cons_succ, range'_getD (by omega)]
    have hcond : (u ++ x :: List.range' (n - t + 1) t).getD (u.length + 1) 0
        = n - k + 1 + (u.length + 1) := by
      rw [hgd]
      omega
    have hstep : carryLoop (n - k + 1) (u.length + 1)
        (u ++ x :: List.range' (n - t + 1) t)
        = carryLoop (n - k + 1) u.length
          ((u ++ x :: List.range' (n - t + 1) t).set u.length
            ((u ++ x :: List.range' (n - t + 1) t).getD u.length 0 + 1)) := by
      simp only [carryLoop, if_pos hcond]
    rw [hstep, getD_append_cons, set_append_cons]
    apply carryLoop_exit
    right
    rw [getD_append_cons]
    omega
  | succ M ih =>
    intro t ht hk hkn hx
    have enorm : u.length + 1 + (M + 1) = u.length + 1 + M + 1 := by omega
    rw [enorm]
    have hml : (List.range' (n - (M + 1 + t)) (M + 1)).length = M + 1 := by
      simp [List.length_range']
    have hgd : (u ++ x :: (List.range' (n - (M + 1 + t)) (M + 1)
        ++ List.range' (n - t + 1) t)).getD (u.length + 1 + M + 1) 0 = n - t + 1 := by
      rw [List.getD_append_right _ _ _ _ (by omega)]
      have e : u.length + 1 + M + 1 - u.length = M + 2 := by omega
      rw [e, List.getD_cons_succ]
      rw [List.getD_append_right _ _ _ _ (by rw [hml])]
      rw [hml]
      have e2 : M + 1 - (M + 1) = 0 := by omega
      rw [e2, range'_getD (by omega)]
    have hcond : (u ++ x :: (List.range' (n - (M + 1 + t)) (M + 1)
        ++ List.range' (n - t + 1) t)).getD (u.length + 1 + M + 1) 0
        = n - k + 1 + (u.length + 1 + M + 1) := by
      rw [hgd]
      omega
    have hgd2 : (u ++ x :: (List.range' (n - (M + 1 + t)) (M + 1)
        ++ List.range' (n - t + 1) t)).getD (u.length + 1 + M) 0 = n - t - 1 := by
      rw [List.getD_append_right _ _ _ _ (by omega)]
      have e : u.length + 1 + M - u.length = M + 1 := by omega
      rw [e, List.getD_cons_succ]
      rw [List.getD_append _ _ _ _ (by rw [hml]; omega)]
      rw [range'_getD (by omega)]
      omega
    have hstep : carryLoop (n - k + 1) (u.length + 1 + M + 1)
        (u ++ x :: (List.range' (n - (M + 1 + t)) (M + 1) ++ List.range' (n - t + 1) t))
        = carryLoop (n - k + 1) (u.length + 1 + M)
          ((u ++ x :: (List.range' (n - (M + 1 + t)) (M + 1)
            ++ List.range' (n - t + 1) t)).set (u.length + 1 + M)
            ((u ++ x :: (List.range' (n - (M + 1 + t)) (M + 1)
              ++ List.range' (n - t + 1) t)).getD (u.length + 1 + M) 0 + 1)) := by
      simp only [carryLoop, if_pos hcond]
    rw [hstep, hgd2]
    have hds : (u ++ x :: (List.range' (n - (M + 1 + t)) (M + 1)
          ++ List.range' (n - t + 1) t))
        = (u ++ x :: List.range' (n - (M + 1 + t)) M)
          ++ (n - (M + 1 + t) + M) :: List.range' (n - t + 1) t := by
      rw [range'_concat]
      simp [List.append_assoc]
    have hplen : (u ++ x :: List.range' (n - (M + 1 + t)) M).length = u.length + 1 + M := by
      simp [List.length_range']
      omega
    have hset := set_append_cons (u ++ x :: List.range' (n - (M + 1 + t)) M)
      (n - (M + 1 + t) + M) (n - t - 1 + 1) (List.range' (n - t + 1) t)
    rw [hplen] at hset
    rw [hds, hset]
    have hval : n - t - 1 + 1 = n - t := by omega
    rw [hval]
    have hshape : (u ++ x :: List.range' (n - (M + 1 + t)) M)
          ++ (n - t) :: List.range' (n - t + 1) t
        = u ++ x :: (List.range' (n - (M + (t + 1))) M ++ List.range' (n - (t + 1) + 1) (t + 1)) := by
      have e1 : n - (M + 1 + t) = n - (M + (t + 1)) := by omega
      have e2 : (n - t) :: List.range' (n - t + 1) t = List.range' (n - t) (t + 1) := by
        rw [List.range'_succ]
      have e3 : n - (t + 1) + 1 = n - t := by omega
      rw [e1, e2, e3]
      simp [List.append_assoc]
    rw [hshape]
    rw [ih (t + 1) (by omega) (by omega) hkn (by omega)]
    have e4 : M + (t + 1) = M + 1 + t := by omega
    rw [e4]

/-- The carry loop on the fully maxed state (the last combination):
it walks all the way down to position `0` and produces the sentinel. -/
lemma carry_chain_full (n k : Nat) :
    ∀ (M t : Nat), 1 ≤ t → M + t = k → k ≤ n →
    carryLoop (n - k + 1) M
        (List.range' (n - k) M ++ List.range' (n - t + 1) t)
      = (List.range' (n - k + 1) k, 0) := by
  intro M
  induction M with
  | zero =>
    intro t ht hk hkn
    simp only [List.range'_zero, List.nil_append]
    have e : n - t + 1 = n - k + 1 := by omega
    have e2 : t = k := by omega
    rw [e, e2]
    rfl
  | succ M ih =>
    intro t ht hk hkn
    have hml : (List.range' (n - k) (M + 1)).length = M + 1 := by
      simp [List.length_range']
    have hgd : (List.range' (n - k) (M + 1) ++ List.range' (n - t + 1) t).getD (M + 1) 0
        = n - t + 1 := by
      rw [List.getD_append_right _ _ _ _ (by rw [hml])]
      rw [hml]
      have e2 : M + 1 - (M + 1) = 0 := by omega
      rw [e2, range'_getD (by omega)]
    have hcond : (List.range' (n - k) (M + 1) ++ List.range' (n - t + 1) t).getD (M + 1) 0
        = n - k + 1 + (M + 1) := by
      rw [hgd]
      omega
    have hgd2 : (List.range' (n - k) (M + 1) ++ List.range' (n - t + 1) t).getD M 0
        = n - k + M := by
      rw [List.getD_append _ _ _ _ (by rw [hml]; omega)]
      rw [range'_getD (by omega)]
    have hstep : carryLoop (n - k + 1) (M + 1)
        (List.range' (n - k) (M + 1) ++ List.range' (n - t + 1) t)
        = carryLoop (n - k + 1) M
          ((List.range' (n - k) (M + 1) ++ List.range' (n - t + 1) t).set M
            ((List.range' (n - k) (M + 1) ++ List.range' (n - t + 1) t).getD M 0 + 1)) := by
      simp only [carryLoop, if_pos hcond]
    rw [hstep, hgd2]
    have hds : List.range' (n - k) (M + 1) ++ List.range' (n - t + 1) t
        = List.range' (n - k) M ++ (n - k + M) :: List.range' (n - t + 1) t := by
      rw [range'_concat]
      simp [List.append_assoc]
    have hplen : (List.range' (n - k) M).length = M := by simp [List.length_range']
    have hset := set_append_cons (List.range' (n - k) M) (n - k + M) (n - k + M + 1)
      (List.range' (n - t + 1) t)
    rw [hplen] at hset
    rw [hds, hset]
    have hval : n - k + M + 1 = n - t := by omega
    rw [hval]
    have hshape : (n - t) :: List.range' (n - t + 1) t = List.range' (n - (t + 1) + 1) (t + 1) := by
      have e3 : n - (t + 1) + 1 = n - t := by omega
      rw [e3, List.range'_succ]
    rw [hshape]
    exact ih (t + 1) (by omega) (by omega) hkn

/-! ### The successor formula -/

lemma VF_headD {n : Nat} {d : List Nat} (hvf : ValidFrom n 0 d) (hne : d ≠ []) :
    d.headD 0 + (d.length - 1) < n := by
  cases d with
  | nil => exact absurd rfl hne
  | cons e r =>
    have := hvf.2.1
    simpa using this

lemma is_done_char (n k : Nat) (d : List Nat) (b : Bool) (h2 : k ≠ 0) (h1 : k ≤ n) :
    (Combinations.mk n k d b).is_done = decide (n - k < d.headD 0) := by
  simp [Combinations.is_done, h2, Nat.not_lt.mpr h1]

lemma next_mut_eq (n k : Nat) (d : List Nat) (b : Bool)
    (h : (Combinations.mk n k d false).is_done = false) :
    Combinations.next_combination_mut ⟨n, k, d, b⟩
      = ⟨n, k, fillLoop k k ((carryLoop (n - k + 1) (k - 1)
          (d.set (k - 1) (d.getD (k - 1) 0 + 1))).2 + 1)
          (carryLoop (n - k + 1) (k - 1) (d.set (k - 1) (d.getD (k - 1) 0 + 1))).1, false⟩ := by
  simp [Combinations.next_combination_mut, h]

lemma next_mut_done (n k : Nat) (d : List Nat) (b : Bool)
    (h : (Combinations.mk n k d false).is_done = true) :
    Combinations.next_combination_mut ⟨n, k, d, b⟩ = ⟨n, k, d, false⟩ := by
  simp [Combinations.next_combination_mut, h]

lemma take_append_cons_succ (u : List Nat) (y : Nat) (r : List Nat) :
    (u ++ y :: r).take (u.length + 1) = u ++ [y] := by
  have h : u ++ y :: r = (u ++ [y]) ++ r := by simp
  rw [h]
  exact List.take_left' (by simp)

/-- Advancing from a non-last combination `u ++ [x] ++ [maxed suffix of
length m]` (with `x` not maxed) bumps `x` and resets the tail to
consecutive values. -/
lemma step_caseB (n k : Nat) (u : List Nat) (x m : Nat) (b : Bool)
    (hk : u.length + 1 + m = k) (hkn : k ≤ n) (hx : x + m + 1 < n)
    (hvf : ValidFrom n 0 (u ++ x :: List.range' (n - m) m)) :
    Combinations.next_combination_mut ⟨n, k, u ++ x :: List.range' (n - m) m, b⟩
      = ⟨n, k, u ++ List.range' (x + 1) (m + 1), false⟩ := by
  have hlen : (u ++ x :: List.range' (n - m) m).length = k := by
    simp [List.length_range']
    omega
  have hne : (u ++ x :: List.range' (n - m) m) ≠ [] := by
    intro hcon
    have := congrArg List.length hcon
    simp at this
  have hh := VF_headD hvf hne
  rw [hlen] at hh
  have hdone : (Combinations.mk n k (u ++ x :: List.range' (n - m) m) false).is_done
      = false := by
    rw [is_done_char _ _ _ _ (by omega) hkn]
    simp only [decide_eq_false_iff_not]
    omega
  rw [next_mut_eq _ _ _ _ hdone]
  cases m with
  | zero =>
    simp only [List.range'_zero]
    have e1 : k - 1 = u.length := by omega
    have hgd : ((u ++ x :: []).getD (k - 1) 0) = x := by
      rw [e1, getD_append_cons]
    have hset : (u ++ x :: []).set (k - 1) (x + 1) = u ++ (x + 1) :: [] := by
      rw [e1, set_append_cons]
    rw [hgd, hset]
    have hcar : carryLoop (n - k + 1) (k - 1) (u ++ (x + 1) :: []) = (u ++ (x + 1) :: [], k - 1) := by
      apply carryLoop_exit
      right
      rw [e1, getD_append_cons]
      omega
    rw [hcar]
    have hfill := fillLoop_eq k k (k - 1 + 1) (u ++ (x + 1) :: [])
      (by simp; omega) (by omega) (by omega)
    simp only at hfill
    rw [hfill]
    have e2 : k - 1 + 1 - 1 = k - 1 := by omega
    rw [e2, e1, getD_append_cons]
    have e3 : k - (u.length + 1) = 0 := by omega
    have e4 : u.length + 1 = (u ++ (x + 1) :: []).length := by simp
    rw [e3, List.range'_zero, e4, List.take_length]
    simp [List.range'_succ]
  | succ M =>
    have e1 : k - 1 = u.length + 1 + M := by omega
    have hmleq : (List.range' (n - (M + 1)) (M + 1)).length = M + 1 := by
      simp [List.length_range']
    have hgd : ((u ++ x :: List.range' (n - (M + 1)) (M + 1)).getD (k - 1) 0) = n - 1 := by
      rw [e1, List.getD_append_right _ _ _ _ (by omega)]
      have e : u.length + 1 + M - u.length = M + 1 := by omega
      rw [e, List.getD_cons_succ, range'_getD (by omega)]
      omega
    rw [hgd]
    have hsplit : u ++ x :: List.range' (n - (M + 1)) (M + 1)
        = (u ++ x :: List.range' (n - (M + 1)) M) ++ (n - 1) :: [] := by
      rw [range'_concat]
      have e : n - (M + 1) + M = n - 1 := by omega
      rw [e]
      simp [List.append_assoc]
    have hplen : (u ++ x :: List.range' (n - (M + 1)) M).length = u.length + 1 + M := by
      simp [List.length_range']
      omega
    have hset := set_append_cons (u ++ x :: List.range' (n - (M + 1)) M)
      (n - 1) (n - 1 + 1) (([] : List Nat))
    rw [hplen] at hset
    have hsetfull : (u ++ x :: List.range' (n - (M + 1)) (M + 1)).set (k - 1) (n - 1 + 1)
        = u ++ x :: (List.range' (n - (M + 1)) M ++ List.range' (n - 1 + 1) 1) := by
      rw [hsplit, e1, hset]
      simp [List.append_assoc, List.range'_succ]
    rw [hsetfull]
    have echain : n - (M + 1) = n - (M + 1 * 1) := by omega
    have hcar := carry_chain n k u x M 1 (by omega) (by omega) hkn (by omega)
    have e2 : n - (M + 1) = n - (M + 1) := rfl
    rw [e1, hcar]
    have hfill := fillLoop_eq k k (u.length + 1)
      (u ++ (x + 1) :: List.range' (n - (M + 1) + 1) (M + 1))
      (by simp [List.length_range']; omega) (by omega) (by omega)
    simp only [Nat.add_sub_cancel] at hfill
    rw [hfill, getD_append_cons, take_append_cons_succ]
    have e3 : k - (u.length + 1) = M + 1 := by omega
    rw [e3]
    have e4 : u ++ [x + 1] ++ List.range' (x + 1 + 1) (M + 1)
        = u ++ List.range' (x + 1) (M + 2) := by
      simp [List.append_assoc, List.range'_succ]
    rw [e4]

lemma range'_eq_cons (a K : Nat) (h : 1 ≤ K) :
    List.range' a K = a :: List.range' (a + 1) (K - 1) := by
  cases K with
  | zero => omega
  | succ K2 => simp [List.range'_succ]

lemma range'_eq_concat (a K : Nat) (h : 1 ≤ K) :
    List.range' a K = List.range' a (K - 1) ++ [a + (K - 1)] := by
  cases K with
  | zero => omega
  | succ K2 => simpa using range'_concat a K2

/-- Advancing from the last combination `[n-k, …, n-1]` produces the
exhausted sentinel `[n-k+1, …, n]`. -/
lemma step_caseA (n k : Nat) (b : Bool) (hk1 : 1 ≤ k) (hkn : k ≤ n) :
    Combinations.next_combination_mut ⟨n, k, List.range' (n - k) k, b⟩
      = ⟨n, k, List.range' (n - k + 1) k, false⟩ := by
  have hdone : (Combinations.mk n k (List.range' (n - k) k) false).is_done = false := by
    rw [is_done_char _ _ _ _ (by omega) hkn]
    simp only [decide_eq_false_iff_not]
    have : (List.range' (n - k) k).headD 0 = n - k := by
      cases k with
      | zero => omega
      | succ k2 => simp [List.range'_succ]
    omega
  rw [next_mut_eq _ _ _ _ hdone]
  have hgd : (List.range' (n - k) k).getD (k - 1) 0 = n - 1 := by
    rw [range'_getD (by omega)]
    omega
  rw [hgd]
  have hsplit : List.range' (n - k) k = List.range' (n - k) (k - 1) ++ (n - 1) :: [] := by
    have h := range'_eq_concat (n - k) k (by omega)
    have e2 : n - k + (k - 1) = n - 1 := by omega
    rw [e2] at h
    simpa using h
  have hplen : (List.range' (n - k) (k - 1)).length = k - 1 := by simp [List.length_range']
  have hset := set_append_cons (List.range' (n - k) (k - 1)) (n - 1) (n - 1 + 1)
    (([] : List Nat))
  rw [hplen] at hset
  have hsetfull : (List.range' (n - k) k).set (k - 1) (n - 1 + 1)
      = List.range' (n - k) (k - 1) ++ List.range' (n - 1 + 1) 1 := by
    rw [hsplit, hset]
    simp [List.range'_succ]
  rw [hsetfull]
  have hcar := carry_chain_full n k (k - 1) 1 (by omega) (by omega) hkn
  rw [hcar]
  have hfill := fillLoop_eq k k (0 + 1) (List.range' (n - k + 1) k)
    (by simp [List.length_range']) (by omega) (by omega)
  simp only [Nat.zero_add, Nat.add_sub_cancel] at hfill
  rw [hfill]
  have hgd0 : (List.range' (n - k + 1) k).getD 0 0 = n - k + 1 := by
    rw [range'_getD (by omega)]
  rw [hgd0]
  have htk : (List.range' (n - k + 1) k).take 1 = [n - k + 1] := by
    rw [range'_eq_cons (n - k + 1) k (by omega)]
    simp
  rw [htk]
  have efin : [n - k + 1] ++ List.range' (n - k + 1 + 1) (k - 1) = List.range' (n - k + 1) k := by
    conv_rhs => rw [range'_eq_cons (n - k + 1) k (by omega)]
    simp
  rw [efin]

/-! ### Decomposition of a combination into prefix and maxed suffix -/

lemma VF_length_le {n : Nat} {d : List Nat} (h : ValidFrom n 0 d) : d.length ≤ n := by
  cases d with
  | nil => simp
  | cons e r =>
    have := h.2.1
    simp only [List.length_cons]
    omega

lemma VF_decomp (d : List Nat) : ∀ (n : Nat), ValidFrom n 0 d →
    d = List.range' (n - d.length) d.length ∨
    ∃ u x m, d = u ++ x :: List.range' (n - m) m ∧ u.length + 1 + m = d.length
      ∧ x + m + 1 < n := by
  induction d using List.reverseRecOn with
  | nil => intro n _; left; simp
  | append_singleton u w ih =>
    intro n hvf
    have hsplit := (VF_append u [w] 0).mp hvf
    have hu : ValidFrom (n - 1) 0 u := by simpa using hsplit.1
    have hw : w < n := by
      have h2 := hsplit.2
      cases u with
      | nil => simpa [nextLo, ValidFrom] using h2.2.1
      | cons e r =>
        have := h2.2.1
        simpa using this
    have hulen : u.length + 1 ≤ n := by
      have := VF_length_le hvf
      simpa using this
    by_cases hwtop : w + 1 < n
    · right
      exact ⟨u, w, 0, by simp, by simp, by omega⟩
    · have hweq : w = n - 1 := by omega
      subst hweq
      rcases ih (n - 1) hu with hcase | ⟨u2, x, m, heq, hlen2, hx⟩
      · left
        rw [hcase]
        simp only [List.length_append, List.length_cons, List.length_nil, List.length_range']
        have h2 := range'_eq_concat (n - (u.length + 1)) (u.length + 1) (by omega)
        simp only [Nat.add_sub_cancel] at h2
        have e1 : n - 1 - u.length = n - (u.length + 1) := by omega
        have e2 : n - (u.length + 1) + u.length = n - 1 := by omega
        rw [e1, h2, e2]
      · right
        have hxn : x + (m + 1) + 1 < n := by omega
        refine ⟨u2, x, m + 1, ?_, ?_, hxn⟩
        · rw [heq]
          have h2 := range'_eq_concat (n - (m + 1)) (m + 1) (by omega)
          simp only [Nat.add_sub_cancel] at h2
          have e1 : n - 1 - m = n - (m + 1) := by omega
          have e2 : n - (m + 1) + m = n - 1 := by omega
          rw [h2, e2, ← e1]
          simp [List.append_assoc]
        · simp only [List.length_append, List.length_cons, List.length_nil]
          omega

/-! ### Rank bookkeeping along the successor -/

lemma step_sumS (n k : Nat) (u : List Nat) (x m : Nat)
    (hk : u.length + 1 + m = k) (hx : x + m + 1 < n) :
    sumS n k (u ++ List.range' (x + 1) (m + 1)) + 1
      = sumS n k (u ++ x :: List.range' (n - m) m) := by
  rw [sumS_append, sumS_append]
  have hKm : k - u.length = m + 1 := by omega
  rw [hKm]
  have h1 := sumS_range' (m + 1) (x + 1) n (by omega)
  have e2 : n - (x + 1) = n - 1 - x := by omega
  rw [e2] at h1
  have hR : sumS n (m + 1) (x :: List.range' (n - m) m)
      = Nat.choose (n - 1 - x) (m + 1) + sumS n m (List.range' (n - m) m) := by
    simp [sumS]
  rw [hR, sumS_zero_of_tight m m (n - m) n (le_refl m) (by omega)]
  omega

lemma step_valid (n k : Nat) (u : List Nat) (x m : Nat)
    (hk : u.length + 1 + m = k) (hx : x + m + 1 < n)
    (hvf : ValidFrom n 0 (u ++ x :: List.range' (n - m) m)) :
    ValidFrom n 0 (u ++ List.range' (x + 1) (m + 1)) := by
  have h1 := (VF_append u (x :: List.range' (n - m) m) 0).mp hvf
  apply (VF_append u (List.range' (x + 1) (m + 1)) 0).mpr
  constructor
  · have := h1.1
    simpa [List.length_range'] using this
  · have hlo : nextLo 0 u ≤ x := h1.2.1
    exact VF_mono_lo (VF_range' (by omega)) (by omega)

lemma sumS_caseB_pos (n k : Nat) (u : List Nat) (x m : Nat)
    (hk : u.length + 1 + m = k) (hx : x + m + 1 < n) :
    1 ≤ sumS n k (u ++ x :: List.range' (n - m) m) := by
  rw [sumS_append]
  simp only [sumS]
  have hge : 1 ≤ Nat.choose (n - 1 - x) (k - u.length) := by
    apply Nat.choose_pos
    omega
  omega

lemma step_lexLtb (n : Nat) (u : List Nat) (x m : Nat) :
    lexLtb (u ++ x :: List.range' (n - m) m) (u ++ List.range' (x + 1) (m + 1)) = true := by
  apply lexLtb_append_left
  rw [range'_eq_cons (x + 1) (m + 1) (by omega)]
  simp [lexLtb]

lemma sumS_sentinelA (n k : Nat) (hkn : k ≤ n) :
    sumS n k (List.range' (n - k) k) = 0 :=
  sumS_zero_of_tight k k (n - k) n (le_refl k) (by omega)

lemma sentinel_is_done (n k : Nat) (hkn : k ≤ n) :
    (Combinations.mk n k (List.range' (n - k + 1) k) false).is_done = true := by
  cases k with
  | zero => simp [Combinations.is_done]
  | succ k2 =>
    rw [is_done_char _ _ _ _ (by omega) hkn]
    rw [range'_eq_cons (n - (k2 + 1) + 1) (k2 + 1) (by omega)]
    simp only [List.headD, decide_eq_true_eq]
    omega

lemma sentinel_absorbing (n k : Nat) (hkn : k ≤ n) :
    Combinations.next_combination_mut ⟨n, k, List.range' (n - k + 1) k, false⟩
      = ⟨n, k, List.range' (n - k + 1) k, false⟩ :=
  next_mut_done n k _ false (sentinel_is_done n k hkn)

/-- The master description of the reachable states of the enumerator (for
`k ≤ n`): after `m < C(n,k)` advances the digits are a well-formed
combination of rank `m`; from `C(n,k)` advances on, the state is the
exhausted sentinel. -/
lemma master (n k : Nat) (hkn : k ≤ n) : ∀ m : Nat,
    (m < Nat.choose n k →
      (stateAt n k m).n = n ∧ (stateAt n k m).k = k
      ∧ (stateAt n k m).digits.length = k
      ∧ ValidFrom n 0 (stateAt n k m).digits
      ∧ sumS n k (stateAt n k m).digits + m + 1 = Nat.choose n k
      ∧ (stateAt n k m).initial = decide (m = 0))
    ∧ (Nat.choose n k ≤ m →
      stateAt n k m = ⟨n, k, List.range' (n - k + 1) k, false⟩) := by
  intro m
  induction m with
  | zero =>
    have hC : 0 < Nat.choose n k := Nat.choose_pos hkn
    constructor
    · intro _
      have hnew : stateAt n k 0 = ⟨n, k, List.range' 0 k, decide (k ≤ n)⟩ := by
        simp [stateAt, Combinations.new, if_pos hkn, List.range_eq_range']
      rw [hnew]
      refine ⟨rfl, rfl, by simp [List.length_range'], VF_range' (by omega), ?_, by simp [hkn]⟩
      have := sumS_range' k 0 n (by omega)
      simpa using this
    · intro h
      omega
  | succ m ih =>
    by_cases hm1 : m + 1 < Nat.choose n k
    · constructor
      · intro _
        have hm : m < Nat.choose n k := by omega
        obtain ⟨hn, hk, hlen, hvf, hS, hinit⟩ := ih.1 hm
        have heta : stateAt n k m
            = Combinations.mk (stateAt n k m).n (stateAt n k m).k
              (stateAt n k m).digits (stateAt n k m).initial := rfl
        rcases VF_decomp (stateAt n k m).digits n hvf with hA | ⟨u, x, m2, heq, hlen2, hx⟩
        · exfalso
          rw [hlen] at hA
          have := sumS_sentinelA n k hkn
          rw [← hA] at this
          omega
        · rw [hlen] at hlen2
          have hstep : stateAt n k (m + 1)
              = ⟨n, k, u ++ List.range' (x + 1) (m2 + 1), false⟩ := by
            show (stateAt n k m).next_combination_mut = _
            rw [heta, hn, hk, heq]
            exact step_caseB n k u x m2 _ (by omega) hkn hx (heq ▸ hvf)
          rw [hstep]
          refine ⟨rfl, rfl, by simp [List.length_range']; omega,
            step_valid n k u x m2 (by omega) hx (heq ▸ hvf), ?_, by simp⟩
          show sumS n k (u ++ List.range' (x + 1) (m2 + 1)) + (m + 1) + 1 = Nat.choose n k
          have hdec := step_sumS n k u x m2 (by omega) hx
          rw [heq] at hS
          omega
      · intro h
        omega
    · constructor
      · intro h
        omega
      · intro _
        by_cases hm : m < Nat.choose n k
        · -- the final advance: the state holds the last combination
          obtain ⟨hn, hk, hlen, hvf, hS, hinit⟩ := ih.1 hm
          have hSm : sumS n k (stateAt n k m).digits = 0 := by omega
          have heta : stateAt n k m
              = Combinations.mk (stateAt n k m).n (stateAt n k m).k
                (stateAt n k m).digits (stateAt n k m).initial := rfl
          rcases VF_decomp (stateAt n k m).digits n hvf with hA | ⟨u, x, m2, heq, hlen2, hx⟩
          · rw [hlen] at hA
            show (stateAt n k m).next_combination_mut = _
            rw [heta, hn, hk, hA]
            by_cases hk0 : k = 0
            · subst hk0
              simp [Combinations.next_combination_mut, Combinations.is_done]
            · exact step_caseA n k _ (by omega) hkn
          · exfalso
            rw [hlen] at hlen2
            have := sumS_caseB_pos n k u x m2 (by omega) hx
            rw [← heq] at this
            omega
        · have hsent := ih.2 (by omega)
          show (stateAt n k m).next_combination_mut = _
          rw [hsent]
          exact sentinel_absorbing n k hkn

/-! ### Derived facts about reachable states -/

lemma stateAt_succ (n k m : Nat) :
    stateAt n k (m + 1) = (stateAt n k m).next_combination_mut := rfl

lemma stateAt_not_done (n k : Nat) (hkn : k ≤ n) (m : Nat) (hm : m < Nat.choose n k) :
    (stateAt n k m).is_done = false := by
  obtain ⟨hn, hk, hlen, hvf, hS, hinit⟩ := (master n k hkn m).1 hm
  have heta : stateAt n k m
      = Combinations.mk (stateAt n k m).n (stateAt n k m).k
        (stateAt n k m).digits (stateAt n k m).initial := rfl
  by_cases hk0 : k = 0
  · subst hk0
    have hC : Nat.choose n 0 = 1 := Nat.choose_zero_right n
    have hm0 : m = 0 := by omega
    subst hm0
    rw [heta, hn, hk, hinit]
    simp [Combinations.is_done]
  · rw [heta, hn, hk]
    rw [is_done_char _ _ _ _ hk0 hkn]
    simp only [decide_eq_false_iff_not]
    have hne : (stateAt n k m).digits ≠ [] := by
      intro hcon
      rw [hcon] at hlen
      simp at hlen
      omega
    have := VF_headD hvf hne
    rw [hlen] at this
    omega

lemma stateAt_done (n k : Nat) (hkn : k ≤ n) (m : Nat) (hm : Nat.choose n k ≤ m) :
    (stateAt n k m).is_done = true := by
  rw [(master n k hkn m).2 hm]
  exact sentinel_is_done n k hkn

lemma stateAt_linear_index (n k : Nat) (h62 : n ≤ 62) (hkn : k ≤ n) (m : Nat)
    (hm : m < Nat.choose n k) :
    (stateAt n k m).linear_index = some m := by
  obtain ⟨hn, hk, hlen, hvf, hS, hinit⟩ := (master n k hkn m).1 hm
  by_cases hk0 : k = 0
  · subst hk0
    have hC : Nat.choose n 0 = 1 := Nat.choose_zero_right n
    have hm0 : m = 0 := by omega
    subst hm0
    have heta : stateAt n 0 0
        = Combinations.mk (stateAt n 0 0).n (stateAt n 0 0).k
          (stateAt n 0 0).digits (stateAt n 0 0).initial := rfl
    rw [heta, hn, hk, hinit]
    simp [Combinations.linear_index]
  · have h := linear_index_eq (stateAt n k m) (by omega) (by omega) (by omega)
      (by rw [hk, hlen]) (by rw [hn]; exact hvf)
    rw [hn, hk] at h
    rw [h]
    congr 1
    omega

lemma stateAt_linear_index_none (n k : Nat) (hkn : k ≤ n) (m : Nat)
    (hm : Nat.choose n k ≤ m) :
    (stateAt n k m).linear_index = none := by
  rw [(master n k hkn m).2 hm]
  by_cases hk0 : k = 0
  · subst hk0
    simp [Combinations.linear_index]
  · apply linear_index_none_of_exhausted _ (by simp; omega) (by simp; omega)
    simp only
    rw [range'_eq_cons (n - k + 1) k (by omega)]
    simp only [List.headD]
    omega

lemma stateAt_count_remaining (n k : Nat) (h62 : n ≤ 62) (hkn : k ≤ n) (m : Nat)
    (hm : m ≤ Nat.choose n k) :
    (stateAt n k m).count_remaining = Nat.choose n k - m := by
  by_cases hk0 : k = 0
  · subst hk0
    have hC : Nat.choose n 0 = 1 := Nat.choose_zero_right n
    by_cases hm0 : m = 0
    · subst hm0
      obtain ⟨hn, hk, hlen, hvf, hS, hinit⟩ := (master n 0 hkn 0).1 (by omega)
      have heta : stateAt n 0 0
          = Combinations.mk (stateAt n 0 0).n (stateAt n 0 0).k
            (stateAt n 0 0).digits (stateAt n 0 0).initial := rfl
      rw [heta, hn, hk, hinit]
      simp [Combinations.count_remaining, hC]
    · rw [(master n 0 hkn m).2 (by omega)]
      simp [Combinations.count_remaining]
      omega
  · by_cases hmC : m < Nat.choose n k
    · obtain ⟨hn, hk, hlen, hvf, hS, hinit⟩ := (master n k hkn m).1 hmC
      have h := count_remaining_eq (stateAt n k m) (by omega) (by omega) (by omega)
        (by rw [hk, hlen]) (by rw [hn]; exact hvf)
      rw [hn, hk] at h
      rw [h]
      omega
    · have hmeq : m = Nat.choose n k := by omega
      rw [(master n k hkn m).2 (by omega)]
      have h := count_remaining_sentinel ⟨n, k, List.range' (n - k + 1) k, false⟩
        (by simpa using h62) (by simpa using Nat.one_le_iff_ne_zero.mpr hk0)
        (by simpa using hkn) (by simp)
      rw [h]
      omega

lemma dig_lex_succ (n k : Nat) (hkn : k ≤ n) (m : Nat) (hm : m + 1 < Nat.choose n k) :
    lexLtb (stateAt n k m).digits (stateAt n k (m + 1)).digits = true := by
  obtain ⟨hn, hk, hlen, hvf, hS, hinit⟩ := (master n k hkn m).1 (by omega)
  rcases VF_decomp _ n hvf with hA | ⟨u, x, m2, heq, hlen2, hx⟩
  · exfalso
    rw [hlen] at hA
    have := sumS_sentinelA n k hkn
    rw [← hA] at this
    omega
  · rw [hlen] at hlen2
    have heta : stateAt n k m
        = Combinations.mk (stateAt n k m).n (stateAt n k m).k
          (stateAt n k m).digits (stateAt n k m).initial := rfl
    have hstep : stateAt n k (m + 1)
        = ⟨n, k, u ++ List.range' (x + 1) (m2 + 1), false⟩ := by
      show (stateAt n k m).next_combination_mut = _
      rw [heta, hn, hk, heq]
      exact step_caseB n k u x m2 _ (by omega) hkn hx (heq ▸ hvf)
    rw [hstep, heq]
    exact step_lexLtb n u x m2

lemma dig_lex_lt (n k : Nat) (hkn : k ≤ n) : ∀ (i j : Nat), i < j → j < Nat.choose n k →
    lexLtb (stateAt n k i).digits (stateAt n k j).digits = true := by
  intro i j
  induction j with
  | zero => intro h _; omega
  | succ j ih =>
    intro hij hj
    by_cases hieq : i = j
    · subst hieq
      exact dig_lex_succ n k hkn i hj
    · exact lexLtb_trans (ih (by omega) (by omega)) (dig_lex_succ n k hkn j hj)

lemma stateAt_next_combination (n k : Nat) (hkn : k ≤ n) (m : Nat)
    (hm : m < Nat.choose n k) :
    (stateAt n k m).next_combination = (some (stateAt n k m).digits, stateAt n k (m + 1)) := by
  rw [Combinations.next_combination, stateAt_not_done n k hkn m hm]
  simp
  rfl

lemma stateAt_next_combination_none (n k : Nat) (hkn : k ≤ n) (m : Nat)
    (hm : Nat.choose n k ≤ m) :
    (stateAt n k m).next_combination = (none, stateAt n k m) := by
  rw [Combinations.next_combination, stateAt_done n k hkn m hm]
  simp

lemma drain_eq (n k : Nat) (hkn : k ≤ n) : ∀ (fuel m : Nat),
    Nat.choose n k - m < fuel →
    drain fuel (stateAt n k m)
      = (List.range' m (Nat.choose n k - m)).map (fun i => (stateAt n k i).digits) := by
  intro fuel
  induction fuel with
  | zero => intro m h; omega
  | succ fuel ih =>
    intro m h
    by_cases hm : m < Nat.choose n k
    · have hnext := stateAt_next_combination n k hkn m hm
      have hdrain : drain (fuel + 1) (stateAt n k m)
          = (stateAt n k m).digits :: drain fuel (stateAt n k (m + 1)) := by
        simp [drain, hnext]
      rw [hdrain, ih (m + 1) (by omega)]
      have e : Nat.choose n k - m = (Nat.choose n k - (m + 1)) + 1 := by omega
      rw [e, List.range'_succ]
      simp
    · have hnext := stateAt_next_combination_none n k hkn m (by omega)
      have hdrain : drain (fuel + 1) (stateAt n k m) = [] := by
        simp [drain, hnext]
      rw [hdrain]
      have e : Nat.choose n k - m = 0 := by omega
      rw [e]
      simp

/-! ### Characterization of reachable states -/

lemma next_mut_fields (c : Combinations) :
    c.next_combination_mut.n = c.n ∧ c.next_combination_mut.k = c.k := by
  simp only [Combinations.next_combination_mut]
  split <;> simp

lemma new_k_le (n k : Nat) (h : k ≤ n) :
    Combinations.new n k = ⟨n, k, List.range k, true⟩ := by
  simp [Combinations.new, h]

lemma new_gt (n k : Nat) (h : n < k) : Combinations.new n k = ⟨n, k, [], false⟩ := by
  simp [Combinations.new, Nat.not_le.mpr h]

lemma new_gt_absorbing (n k : Nat) (h : n < k) :
    (Combinations.new n k).next_combination_mut = Combinations.new n k := by
  rw [new_gt n k h]
  apply next_mut_done
  simp [Combinations.is_done, h]

lemma stateAt_digits_length (n k : Nat) (hkn : k ≤ n) (m : Nat) (hm : m ≤ Nat.choose n k) :
    (stateAt n k m).digits.length = k := by
  by_cases hmC : m < Nat.choose n k
  · exact ((master n k hkn m).1 hmC).2.2.1
  · rw [(master n k hkn m).2 (by omega)]
    simp [List.length_range']

lemma stateAt_zero (n k : Nat) : stateAt n k 0 = Combinations.new n k := rfl

/-- Every reachable state of the enumerator is, for `k ≤ n`, one of the
states `stateAt m` with `m ≤ C(n,k)`; for `k > n` it is the fresh (and
already exhausted) state itself. -/
lemma reachable_char (c : Combinations) (h : Reachable c) :
    (c.k ≤ c.n → ∃ m, m ≤ Nat.choose c.n c.k ∧ c = stateAt c.n c.k m)
    ∧ (c.n < c.k → c = Combinations.new c.n c.k) := by
  induction h with
  | new n k =>
    constructor
    · intro _
      exact ⟨0, Nat.zero_le _, rfl⟩
    · intro _
      rfl
  | @step c hc ih =>
    obtain ⟨hfn, hfk⟩ := next_mut_fields c
    constructor
    · intro hkn
      rw [hfn, hfk] at hkn ⊢
      obtain ⟨m, hm, hceq⟩ := ih.1 hkn
      by_cases hmC : m < Nat.choose c.n c.k
      · refine ⟨m + 1, by omega, ?_⟩
        rw [stateAt_succ]
        exact congrArg Combinations.next_combination_mut hceq
      · refine ⟨m, hm, ?_⟩
        have h1 : stateAt c.n c.k m = ⟨c.n, c.k, List.range' (c.n - c.k + 1) c.k, false⟩ :=
          (master c.n c.k hkn m).2 (by omega)
        have h2 : c.next_combination_mut = (stateAt c.n c.k m).next_combination_mut :=
          congrArg Combinations.next_combination_mut hceq
        rw [h2, h1]
        exact sentinel_absorbing c.n c.k hkn
    · intro hnk
      rw [hfn, hfk] at hnk ⊢
      have h2 : c.next_combination_mut = (Combinations.new c.n c.k).next_combination_mut :=
        congrArg Combinations.next_combination_mut (ih.2 hnk)
      rw [h2]
      exact new_gt_absorbing c.n c.k hnk
  | @reset c hc ih =>
    have hfn : c.reset.n = c.n := rfl
    have hfk : c.reset.k = c.k := rfl
    constructor
    · intro hkn
      rw [hfn, hfk] at hkn ⊢
      obtain ⟨m, hm, hceq⟩ := ih.1 hkn
      refine ⟨0, Nat.zero_le _, ?_⟩
      rw [stateAt_zero, new_k_le c.n c.k hkn]
      show Combinations.mk c.n c.k (List.range c.digits.length) (decide (c.k ≤ c.n)) = _
      have hlen : c.digits.length = c.k := by
        conv_lhs => rw [hceq]
        exact stateAt_digits_length c.n c.k hkn m hm
      rw [hlen]
      simp [hkn]
    · intro hnk
      rw [hfn, hfk] at hnk ⊢
      have hceq := ih.2 hnk
      rw [new_gt c.n c.k hnk]
      show Combinations.mk c.n c.k (List.range c.digits.length) (decide (c.k ≤ c.n)) = _
      have hlen : c.digits.length = 0 := by
        conv_lhs => rw [hceq, new_gt c.n c.k hnk]
        rfl
      rw [hlen]
      simp [show ¬(c.k ≤ c.n) by omega]

lemma stateAt_reachable (n k m : Nat) : Reachable (stateAt n k m) := by
  induction m with
  | zero => exact Reachable.new n k
  | succ m ih => exact Reachable.step ih

/-! ### Completeness: every combination is visited -/

lemma combo_complete (n k : Nat) (hkn : k ≤ n) (e : List Nat) (hvf : ValidFrom n 0 e)
    (hlen : e.length = k) :
    ∃ m, m < Nat.choose n k ∧ (stateAt n k m).digits = e := by
  have hTS := TS_bound n e 0 hvf
  rw [hlen] at hTS
  simp only [Nat.sub_zero] at hTS
  refine ⟨Nat.choose n k - 1 - sumS n k e, by omega, ?_⟩
  set r := Nat.choose n k - 1 - sumS n k e with hr
  obtain ⟨hn, hk, hlen2, hvf2, hS2, _⟩ := (master n k hkn r).1 (by omega)
  have hSe : sumS n k (stateAt n k r).digits = sumS n k e := by omega
  rcases lexLtb_total (stateAt n k r).digits e with hEq | hLt | hGt
  · exact hEq
  · exfalso
    have := sumS_lt_of_lexLt (stateAt n k r).digits e 0 hvf2 hvf (by omega) hLt
    rw [hlen, hlen2] at this
    omega
  · exfalso
    have := sumS_lt_of_lexLt e (stateAt n k r).digits 0 hvf hvf2 (by omega) hGt
    rw [hlen, hlen2] at this
    omega

/-! ### Counting the combinations lexicographically below a state -/

lemma countP_preceding (n k : Nat) (hkn : k ≤ n) (m : Nat) (hm : m < Nat.choose n k) :
    (((List.range' 0 (Nat.choose n k)).map (fun i => (stateAt n k i).digits)).countP
      (fun e => lexLtb e (stateAt n k m).digits)) = m := by
  rw [List.countP_map]
  have hsplit : List.range' 0 (Nat.choose n k)
      = List.range' 0 m ++ List.range' m (Nat.choose n k - m) := by
    have h := List.range'_append_1 0 m (Nat.choose n k - m)
    simp only [Nat.zero_add] at h
    rw [h]
    congr 1
    omega
  rw [hsplit, List.countP_append]
  have h1 : (List.range' 0 m).countP
      ((fun e => lexLtb e (stateAt n k m).digits) ∘ fun i => (stateAt n k i).digits) = m := by
    have hall : ∀ i ∈ List.range' 0 m,
        ((fun e => lexLtb e (stateAt n k m).digits) ∘ fun i => (stateAt n k i).digits) i
          = true := by
      intro i hi
      rw [List.mem_range'_1] at hi
      exact dig_lex_lt n k hkn i m (by omega) hm
    rw [List.countP_eq_length.mpr hall, List.length_range']
  have h2 : (List.range' m (Nat.choose n k - m)).countP
      ((fun e => lexLtb e (stateAt n k m).digits) ∘ fun i => (stateAt n k i).digits) = 0 := by
    apply List.countP_eq_zero.mpr
    intro i hi
    rw [List.mem_range'_1] at hi
    simp only [Function.comp_apply, Bool.not_eq_true]
    by_cases him : i = m
    · subst him
      exact lexLtb_irrefl _
    · exact lexLtb_asymm (dig_lex_lt n k hkn m i (by omega) (by omega))
  rw [h1, h2]
  omega

/-! ### Correctness of `combinatorial_index` (unrank) -/

lemma ciInner_spec (n I : Nat) (h62 : n ≤ 62) (hI : 1 ≤ I) : ∀ (fuel l d : Nat),
    l < fuel → l < Nat.choose (n - d) (I + 1) →
    ∃ l2 d2, ciInner n I fuel l d = some (l2, d2) ∧ d ≤ d2
      ∧ l2 < Nat.choose (n - 1 - d2) I
      ∧ l2 + Nat.choose (n - d) (I + 1) = l + Nat.choose (n - d2) (I + 1) := by
  intro fuel
  induction fuel with
  | zero => intro l d hf _; omega
  | succ fuel ih =>
    intro l d hf hinv
    have hnd : I + 1 ≤ n - d := by
      by_contra hcon
      rw [Nat.choose_eq_zero_of_lt (by omega)] at hinv
      omega
    have hb : binomial (n - 1 - d) I = Nat.choose (n - 1 - d) I :=
      binomial_eq_choose I (by omega)
    by_cases hbl : binomial (n - 1 - d) I ≤ l
    · have hbpos : 0 < Nat.choose (n - 1 - d) I := Nat.choose_pos (by omega)
      have hpascal : Nat.choose (n - d) (I + 1)
          = Nat.choose (n - d - 1) I + Nat.choose (n - d - 1) (I + 1) :=
        choose_pred_pascal (by omega)
      have e1 : n - d - 1 = n - 1 - d := by omega
      rw [e1] at hpascal
      have hinv2 : l - binomial (n - 1 - d) I < Nat.choose (n - (d + 1)) (I + 1) := by
        have e2 : n - (d + 1) = n - 1 - d := by omega
        rw [e2, hb]
        omega
      obtain ⟨l2, d2, heq, hd2, hl2, hcons⟩ := ih (l - binomial (n - 1 - d) I) (d + 1)
        (by omega) hinv2
      have hstep : ciInner n I (fuel + 1) l d
          = ciInner n I fuel (l - binomial (n - 1 - d) I) (d + 1) := by
        simp only [ciInner, if_pos hbl]
      refine ⟨l2, d2, by rw [hstep]; exact heq, by omega, hl2, ?_⟩
      rw [hb] at hcons
      have e2 : n - (d + 1) = n - 1 - d := by omega
      rw [e2] at hcons
      omega
    · have hstep : ciInner n I (fuel + 1) l d = some (l, d) := by
        simp only [ciInner, if_neg hbl]
      rw [hb] at hbl
      exact ⟨l, d, hstep, le_refl d, by omega, rfl⟩

lemma ciLoop_spec (n : Nat) (h62 : n ≤ 62) : ∀ (I : Nat) (pre : List Nat) (s0 l : Nat),
    l < Nat.choose (n - s0) (I + 1) →
    ∃ e0 t l2, ciLoop n I pre.length l (pre ++ s0 :: List.replicate I 0)
        = some (pre ++ e0 ++ [t], l2)
      ∧ e0.length = I
      ∧ ValidFrom n s0 (e0 ++ [t + l2])
      ∧ l + sumS n (I + 1) (e0 ++ [t + l2]) + 1 = Nat.choose (n - s0) (I + 1) := by
  intro I
  induction I with
  | zero =>
    intro pre s0 l hinv
    refine ⟨[], s0, l, by simp [ciLoop], rfl, ?_, ?_⟩
    · rw [Nat.choose_one_right] at hinv
      exact ⟨by omega, by simp; omega, trivial⟩
    · rw [Nat.choose_one_right] at hinv ⊢
      simp only [List.nil_append, sumS, List.length_nil, Nat.zero_add, Nat.choose_one_right]
      omega
  | succ I ih =>
    intro pre s0 l hinv
    have hgd : (pre ++ s0 :: List.replicate (I + 1) 0).getD pre.length 0 = s0 :=
      getD_append_cons pre s0 _
    obtain ⟨l1, d1, hInner, hd1, hl1, hcons⟩ :=
      ciInner_spec n (I + 1) h62 (by omega) (l + 1) l s0 (by omega) hinv
    have hnd1 : I + 1 ≤ n - 1 - d1 := by
      by_contra hcon
      rw [Nat.choose_eq_zero_of_lt (by omega)] at hl1
      omega
    have hsets : ((pre ++ s0 :: List.replicate (I + 1) 0).set pre.length d1).set
        (pre.length + 1) (d1 + 1)
        = (pre ++ [d1]) ++ (d1 + 1) :: List.replicate I 0 := by
      rw [set_append_cons]
      have hrep : (List.replicate (I + 1) 0 : List Nat) = 0 :: List.replicate I 0 := rfl
      rw [hrep]
      have h2 := set_append_cons (pre ++ [d1]) 0 (d1 + 1) (List.replicate I 0)
      have hl : (pre ++ [d1]).length = pre.length + 1 := by simp
      rw [hl] at h2
      rw [← h2]
      simp [List.append_assoc]
    have hstep : ciLoop n (I + 1) pre.length l (pre ++ s0 :: List.replicate (I + 1) 0)
        = ciLoop n I (pre.length + 1) l1 ((pre ++ [d1]) ++ (d1 + 1) :: List.replicate I 0) := by
      simp only [ciLoop, hgd, hInner, hsets]
    have hinv2 : l1 < Nat.choose (n - (d1 + 1)) (I + 1) := by
      have e : n - (d1 + 1) = n - 1 - d1 := by omega
      rw [e]
      exact hl1
    have hpl : (pre ++ [d1]).length = pre.length + 1 := by simp
    obtain ⟨e0, t, l2, hrec, hlen0, hvf0, hrank0⟩ := ih (pre ++ [d1]) (d1 + 1) l1 hinv2
    rw [hpl] at hrec
    refine ⟨d1 :: e0, t, l2, ?_, by simp [hlen0], ?_, ?_⟩
    · rw [hstep, hrec]
      simp [List.append_assoc]
    · show ValidFrom n s0 (d1 :: (e0 ++ [t + l2]))
      have hl2 : (e0 ++ [t + l2]).length = I + 1 := by
        rw [List.length_append, hlen0]
        rfl
      exact ⟨hd1, by rw [hl2]; omega, hvf0⟩
    · have hsum : sumS n (I + 1 + 1) ((d1 :: e0) ++ [t + l2])
          = Nat.choose (n - 1 - d1) (I + 1 + 1) + sumS n (I + 1) (e0 ++ [t + l2]) := by
        simp [sumS]
      rw [hsum]
      have hpascal : Nat.choose (n - d1) (I + 1 + 1)
          = Nat.choose (n - 1 - d1) (I + 1) + Nat.choose (n - 1 - d1) (I + 1 + 1) := by
        have h := @choose_pred_pascal (n - d1) (I + 1) (by omega)
        have e : n - d1 - 1 = n - 1 - d1 := by omega
        rw [e] at h
        exact h
      have e : n - (d1 + 1) = n - 1 - d1 := by omega
      rw [e] at hrank0
      omega

lemma ci_correct (c : Combinations) (l : Nat) (hk1 : 1 ≤ c.k) (hkn : c.k ≤ c.n)
    (h62 : c.n ≤ 62) (hl : l < Nat.choose c.n c.k) :
    ∃ e, c.combinatorial_index l = some e ∧ e.length = c.k
      ∧ ValidFrom c.n 0 e ∧ l + sumS c.n c.k e + 1 = Nat.choose c.n c.k := by
  obtain ⟨K, hK⟩ : ∃ K, c.k = K + 1 := ⟨c.k - 1, by omega⟩
  have hne0 : ¬ c.k = 0 := by omega
  have hnlt : ¬ c.n < c.k := by omega
  obtain ⟨e0, t, l2, hloop, hlen0, hvf0, hrank0⟩ :=
    ciLoop_spec c.n h62 K [] 0 l (by rw [Nat.sub_zero, ← hK]; exact hl)
  have hloop2 : ciLoop c.n (c.k - 1) 0 l (List.replicate c.k 0) = some (e0 ++ [t], l2) := by
    rw [hK]
    have e1 : K + 1 - 1 = K := by omega
    rw [e1]
    simpa [List.replicate_succ] using hloop
  have hgd : (e0 ++ [t]).getD (c.k - 1) 0 = t := by
    have h := getD_append_cons e0 t []
    rw [hlen0] at h
    rw [hK]
    have e1 : K + 1 - 1 = K := by omega
    rw [e1]
    exact h
  have hset : (e0 ++ [t]).set (c.k - 1) (t + l2) = e0 ++ [t + l2] := by
    have h := set_append_cons e0 t (t + l2) []
    rw [hlen0] at h
    rw [hK]
    have e1 : K + 1 - 1 = K := by omega
    rw [e1]
    exact h
  refine ⟨e0 ++ [t + l2], ?_, by simp [hlen0, hK], hvf0, ?_⟩
  · show Combinations.combinatorial_index c l = _
    unfold Combinations.combinatorial_index
    rw [if_neg hne0, if_neg hnlt, hloop2]
    show some ((e0 ++ [t]).set (c.k - 1) ((e0 ++ [t]).getD (c.k - 1) 0 + l2)) = _
    rw [hgd, hset]
  · rw [Nat.sub_zero, ← hK] at hrank0
    exact hrank0

/-! ### Remaining helper lemmas for the claim theorems -/

lemma linear_index_none_of_gt (c : Combinations) (hnk : c.n < c.k) :
    c.linear_index = none := by
  unfold Combinations.linear_index
  rw [if_neg (by omega), if_pos (Or.inl hnk)]

lemma ci_k1 (c : Combinations) (l : Nat) (hk : c.k = 1) (hn : 1 ≤ c.n) :
    c.combinatorial_index l = some [l] := by
  unfold Combinations.combinatorial_index
  rw [hk]
  rw [if_neg (by omega), if_neg (by omega)]
  show some ((List.replicate 1 0).set (1 - 1) ((List.replicate 1 0).getD (1 - 1) 0 + l))
    = some [l]
  simp

lemma VF_getD {n : Nat} : ∀ (d : List Nat) (lo i : Nat), ValidFrom n lo d → i < d.length →
    lo + i ≤ d.getD i 0 ∧ d.getD i 0 + (d.length - 1 - i) < n := by
  intro d
  induction d with
  | nil =>
    intro lo i _ hi
    simp at hi
  | cons x rest ih =>
    intro lo i hvf hi
    cases i with
    | zero =>
      simp only [List.getD_cons_zero, List.length_cons]
      have h1 := hvf.1
      have h2 := hvf.2.1
      omega
    | succ i =>
      have hlen : i < rest.length := by
        simp only [List.length_cons] at hi
        omega
      have h := ih (x + 1) i hvf.2.2 hlen
      simp only [List.getD_cons_succ, List.length_cons]
      have h1 := hvf.1
      omega

lemma reset_eq_new (c : Combinations) (h : Reachable c) :
    c.reset = Combinations.new c.n c.k := by
  have hchar := reachable_char c h
  by_cases hkn : c.k ≤ c.n
  · obtain ⟨m, hm, hceq⟩ := hchar.1 hkn
    have hlen : c.digits.length = c.k := by
      conv_lhs => rw [hceq]
      exact stateAt_digits_length c.n c.k hkn m hm
    show Combinations.mk c.n c.k (List.range c.digits.length) (decide (c.k ≤ c.n)) = _
    rw [hlen]
    simp [Combinations.new, hkn]
  · have hceq := hchar.2 (by omega)
    have hlen : c.digits.length = 0 := by
      conv_lhs => rw [hceq, new_gt c.n c.k (by omega)]
      rfl
    show Combinations.mk c.n c.k (List.range c.digits.length) (decide (c.k ≤ c.n)) = _
    rw [hlen, new_gt c.n c.k (by omega)]
    simp [show ¬ (c.k ≤ c.n) by omega]

lemma stateAt_count_remaining_all (n k : Nat) (h62 : n ≤ 62) (hkn : k ≤ n) (m : Nat) :
    (stateAt n k m).count_remaining = Nat.choose n k - m := by
  by_cases hm : m ≤ Nat.choose n k
  · exact stateAt_count_remaining n k h62 hkn m hm
  · have h1 := (master n k hkn m).2 (by omega)
    have h2 := (master n k hkn (Nat.choose n k)).2 (le_refl _)
    have h3 := stateAt_count_remaining n k h62 hkn (Nat.choose n k) (le_refl _)
    rw [h2] at h3
    rw [h1, h3]
    omega

lemma drain_new_eq (n k fuel : Nat) (hkn : k ≤ n) (hfuel : Nat.choose n k < fuel) :
    drain fuel (Combinations.new n k)
      = (List.range' 0 (Nat.choose n k)).map (fun i => (stateAt n k i).digits) := by
  rw [← stateAt_zero]
  have h := drain_eq n k hkn fuel 0 (by omega)
  rw [Nat.sub_zero] at h
  exact h

/-! ### The claim theorems -/

/-- C4: for all `n ≤ 62` and every `k`, the free function `binomial n k`
returns the exact binomial coefficient `C(n,k)` (computing with 64-bit
wrap-around arithmetic, so the equality also shows no intermediate
overflow disturbs the result), returning `0` whenever `k > n`; in
particular `binomial 62 31 = 465428353255261088` and `binomial 3 4 = 0`. -/
theorem binomial_correct_C4 (n k : Nat) (h62 : n ≤ 62) :
    binomial n k = Nat.choose n k
    ∧ (n < k → binomial n k = 0)
    ∧ binomial 62 31 = 465428353255261088
    ∧ binomial 3 4 = 0 := by
  refine ⟨binomial_eq_choose k h62, ?_, ?_, by decide⟩
  · intro h
    rw [binomial_eq_choose k h62]
    exact Nat.choose_eq_zero_of_lt h
  · rw [binomial_eq_choose 31 (by omega)]
    exact choose_62_31_eq

theorem binomial_correct_C4_witness :
    binomial 3 4 = Nat.choose 3 4
    ∧ (3 < 4 → binomial 3 4 = 0)
    ∧ binomial 62 31 = 465428353255261088
    ∧ binomial 3 4 = 0 :=
  binomial_correct_C4 3 4 (by decide)

/-- C7: for every reachable enumerator state, `reset` produces exactly the
freshly constructed enumerator over the same `(n, k)`, so a drain after
`reset` (any fuel) yields the identical sequence of combinations as
draining a fresh instance, regardless of the advances made before. -/
theorem reset_fresh_C7 (c : Combinations) (h : Reachable c) (fuel : Nat) :
    c.reset = Combinations.new c.n c.k
    ∧ drain fuel c.reset = drain fuel (Combinations.new c.n c.k) := by
  have h1 := reset_eq_new c h
  exact ⟨h1, by rw [h1]⟩

theorem reset_fresh_C7_witness :
    (stateAt 3 2 1).reset = Combinations.new (stateAt 3 2 1).n (stateAt 3 2 1).k
    ∧ drain 4 (stateAt 3 2 1).reset
      = drain 4 (Combinations.new (stateAt 3 2 1).n (stateAt 3 2 1).k) :=
  reset_fresh_C7 (stateAt 3 2 1) (Reachable.step (Reachable.new 3 2)) 4

/-- C8: every reachable state with `is_done = true` is a fixed point of
`next_combination_mut`: the advance leaves digits, `n`, `k` and the
`initial` flag all unchanged. -/
theorem exhausted_fixed_C8 (c : Combinations) (h : Reachable c)
    (hdone : c.is_done = true) :
    c.next_combination_mut = c := by
  have hchar := reachable_char c h
  by_cases hkn : c.k ≤ c.n
  · obtain ⟨m, hm, hceq⟩ := hchar.1 hkn
    by_cases hmC : m < Nat.choose c.n c.k
    · rw [hceq, stateAt_not_done c.n c.k hkn m hmC] at hdone
      cases hdone
    · have hsent := (master c.n c.k hkn m).2 (by omega)
      rw [hceq, hsent]
      exact sentinel_absorbing c.n c.k hkn
  · rw [hchar.2 (by omega)]
    exact new_gt_absorbing c.n c.k (by omega)

theorem exhausted_fixed_C8_witness :
    (stateAt 2 1 2).next_combination_mut = stateAt 2 1 2 :=
  exhausted_fixed_C8 (stateAt 2 1 2)
    (Reachable.step (Reachable.step (Reachable.new 2 1))) (by decide)

/-- C10: on an enumerator whose domain is invalid (`k > n`),
`combinatorial_index` returns `some []` for every position `l` — never an
absent value, although no rank is valid — while `linear_index` on the
same state returns `none`. -/
theorem gt_domain_C10 (c : Combinations) (l : Nat) (hnk : c.n < c.k) :
    c.combinatorial_index l = some [] ∧ c.linear_index = none := by
  constructor
  · unfold Combinations.combinatorial_index
    rw [if_neg (by omega), if_pos hnk]
  · exact linear_index_none_of_gt c hnk

theorem gt_domain_C10_witness :
    (Combinations.new 2 5).combinatorial_index 3 = some []
    ∧ (Combinations.new 2 5).linear_index = none :=
  gt_domain_C10 (Combinations.new 2 5) 3 (by decide)

/-- C6 (amended): `linear_index` does signal exhaustion with an explicit
`none`, but `combinatorial_index` performs no range check on `l`: on a
`k = 1` enumerator it returns `some [l]` for every `l`, including every
out-of-range `l ≥ C(n,1) = n`, instead of an absent value. -/
theorem no_value_discipline_C6 :
    (∀ c : Combinations, c.is_done = true → 1 ≤ c.k → c.k ≤ c.n →
      c.linear_index = none)
    ∧ (∀ (c : Combinations) (l : Nat), c.k = 1 → 1 ≤ c.n →
      c.combinatorial_index l = some [l]) := by
  constructor
  · intro c hdone hk1 hkn
    have h3 : c.n - c.k < c.digits.headD 0 := by
      rw [Combinations.is_done] at hdone
      simp [show ¬ (c.n < c.k) by omega, show ¬ (c.k = 0) by omega] at hdone
      simpa using hdone
    exact linear_index_none_of_exhausted c hk1 hkn h3
  · intro c l hk hn
    exact ci_k1 c l hk hn

theorem no_value_discipline_C6_witness :
    (stateAt 2 1 2).linear_index = none
    ∧ (Combinations.new 3 1).combinatorial_index 7 = some [7] :=
  ⟨no_value_discipline_C6.1 (stateAt 2 1 2) (by decide) (by decide) (by decide),
    no_value_discipline_C6.2 (Combinations.new 3 1) 7 (by decide) (by decide)⟩

/-- C6, counterexample to the claimed behaviour: on the `(n,k) = (2,1)`
enumerator the position `l = 2` is out of range (`l ≥ C(2,1) = 2`), yet
`combinatorial_index` returns `some [2]`, not `none`. -/
theorem no_value_discipline_C6_cex :
    Nat.choose 2 1 ≤ 2
    ∧ (Combinations.new 2 1).combinatorial_index 2 = some [2]
    ∧ (Combinations.new 2 1).combinatorial_index 2 ≠ none := by
  refine ⟨by decide, by decide, by decide⟩

/-- C9 (amended): for every reachable state over `(n,k)` with
`0 < k ≤ n` the digits are strictly increasing and satisfy the relaxed
positional bound `d_i ≤ n - k + 1 + i`; the claimed tight bound
`d_i ≤ n - k + i` together with `d_i < n` holds on every non-exhausted
state, but is violated by the exhausted sentinel digits
`[n-k+1, …, n]`. -/
theorem digits_invariant_C9 (c : Combinations) (h : Reachable c)
    (hk1 : 1 ≤ c.k) (hkn : c.k ≤ c.n) :
    c.digits.Chain' (· < ·)
    ∧ (∀ i, i < c.digits.length → c.digits.getD i 0 ≤ c.n - c.k + 1 + i)
    ∧ (c.is_done = false →
        ∀ i, i < c.digits.length →
          c.digits.getD i 0 ≤ c.n - c.k + i ∧ c.digits.getD i 0 < c.n) := by
  obtain ⟨m, hm, hceq⟩ := (reachable_char c h).1 hkn
  by_cases hmC : m < Nat.choose c.n c.k
  · obtain ⟨hn', hk', hlen, hvf, _, _⟩ := (master c.n c.k hkn m).1 hmC
    rw [← hceq] at hlen hvf
    refine ⟨VF_chain hvf, ?_, ?_⟩
    · intro i hi
      have h1 := VF_getD c.digits 0 i hvf hi
      omega
    · intro _ i hi
      have h1 := VF_getD c.digits 0 i hvf hi
      exact ⟨by omega, by omega⟩
  · have hsent := (master c.n c.k hkn m).2 (by omega)
    rw [hsent] at hceq
    have hdig : c.digits = List.range' (c.n - c.k + 1) c.k :=
      congrArg Combinations.digits hceq
    have hdone : c.is_done = true := by
      have h2 := congrArg Combinations.is_done hceq
      rw [h2]
      exact sentinel_is_done c.n c.k hkn
    refine ⟨?_, ?_, ?_⟩
    · rw [hdig]
      exact (List.pairwise_lt_range' _ _).chain'
    · intro i hi
      rw [hdig] at hi ⊢
      rw [List.length_range'] at hi
      rw [range'_getD hi]
    · intro hfalse
      rw [hdone] at hfalse
      cases hfalse

theorem digits_invariant_C9_witness :
    (stateAt 4 2 1).digits.Chain' (· < ·)
    ∧ (∀ i, i < (stateAt 4 2 1).digits.length →
        (stateAt 4 2 1).digits.getD i 0 ≤ (stateAt 4 2 1).n - (stateAt 4 2 1).k + 1 + i)
    ∧ ((stateAt 4 2 1).is_done = false →
        ∀ i, i < (stateAt 4 2 1).digits.length →
          (stateAt 4 2 1).digits.getD i 0 ≤ (stateAt 4 2 1).n - (stateAt 4 2 1).k + i
          ∧ (stateAt 4 2 1).digits.getD i 0 < (stateAt 4 2 1).n) :=
  digits_invariant_C9 (stateAt 4 2 1) (Reachable.step (Reachable.new 4 2))
    (by decide) (by decide)

/-- C9, counterexample to the claimed behaviour: after exhausting the
`(n,k) = (1,1)` enumerator (one advance) the state is reachable with
digits `[1]`, violating both `d_0 ≤ n - k + 0 = 0` and `d_0 < n = 1`. -/
theorem digits_invariant_C9_cex :
    Reachable (stateAt 1 1 1)
    ∧ (stateAt 1 1 1).digits = [1]
    ∧ ¬ ((stateAt 1 1 1).digits.getD 0 0 ≤ (stateAt 1 1 1).n - (stateAt 1 1 1).k + 0)
    ∧ ¬ ((stateAt 1 1 1).digits.getD 0 0 < (stateAt 1 1 1).n) :=
  ⟨Reachable.step (Reachable.new 1 1), by decide, by decide, by decide⟩

/-- C5: on the state reached after `m` advances of a fresh `(n,k)`
enumerator with `k ≤ n ≤ 62`, `count_remaining` equals
`C(n,k) - m` (the total count minus the current rank, counting the
current combination, and `0` once exhausted); it decreases by exactly
`1` on each advance from a non-exhausted state, and it is `0` exactly
when `is_done` is `true`. -/
theorem count_remaining_C5 (n k m : Nat) (hkn : k ≤ n) (h62 : n ≤ 62) :
    (stateAt n k m).count_remaining = Nat.choose n k - m
    ∧ (m < Nat.choose n k →
        (stateAt n k m).next_combination_mut.count_remaining + 1
          = (stateAt n k m).count_remaining)
    ∧ ((stateAt n k m).count_remaining = 0 ↔ (stateAt n k m).is_done = true) := by
  have hall := stateAt_count_remaining_all n k h62 hkn m
  refine ⟨hall, ?_, ?_, ?_⟩
  · intro hm
    have hsucc := stateAt_count_remaining_all n k h62 hkn (m + 1)
    rw [stateAt_succ] at hsucc
    rw [hsucc, hall]
    omega
  · intro h0
    have hCpos : 0 < Nat.choose n k := Nat.choose_pos hkn
    have hCm : Nat.choose n k ≤ m := by
      rw [hall] at h0
      omega
    exact stateAt_done n k hkn m hCm
  · intro hdone
    by_cases hm : m < Nat.choose n k
    · rw [stateAt_not_done n k hkn m hm] at hdone
      cases hdone
    · rw [hall]
      omega

theorem count_remaining_C5_witness :
    (stateAt 4 2 3).count_remaining = Nat.choose 4 2 - 3
    ∧ (3 < Nat.choose 4 2 →
        (stateAt 4 2 3).next_combination_mut.count_remaining + 1
          = (stateAt 4 2 3).count_remaining)
    ∧ ((stateAt 4 2 3).count_remaining = 0 ↔ (stateAt 4 2 3).is_done = true) :=
  count_remaining_C5 4 2 3 (by decide) (by decide)

/-- C1: rank and unrank are mutually inverse on the valid domain: for
`k ≤ n ≤ 62` and every `l < C(n,k)`, the state reached after `l`
advances of a fresh enumerator has `linear_index = some l` (so unranking
its rank returns its own digits, by the second conjunct), and
`combinatorial_index l` on the fresh enumerator returns exactly the
digit sequence of that state (so ranking the state holding `unrank l`
returns `l`, by the first conjunct). -/
theorem rank_unrank_roundtrip_C1 (n k l : Nat) (hkn : k ≤ n) (h62 : n ≤ 62)
    (hl : l < Nat.choose n k) :
    (stateAt n k l).linear_index = some l
    ∧ (Combinations.new n k).combinatorial_index l = some (stateAt n k l).digits := by
  refine ⟨stateAt_linear_index n k h62 hkn l hl, ?_⟩
  by_cases hk0 : k = 0
  · subst hk0
    have hC : Nat.choose n 0 = 1 := Nat.choose_zero_right n
    have hl0 : l = 0 := by omega
    subst hl0
    rw [stateAt_zero, new_k_le n 0 (by omega)]
    simp [Combinations.combinatorial_index, List.range_zero]
  · have hk1 : 1 ≤ k := by omega
    obtain ⟨e, hci, hlen, hvf, hrank⟩ :=
      ci_correct (Combinations.new n k) l hk1 hkn h62 hl
    simp only [Combinations.new] at hlen hvf hrank
    obtain ⟨m, hmC, hdig⟩ := combo_complete n k hkn e hvf hlen
    obtain ⟨_, _, _, _, hS, _⟩ := (master n k hkn m).1 hmC
    rw [hdig] at hS
    have hml : m = l := by omega
    subst hml
    rw [hci, hdig]

theorem rank_unrank_roundtrip_C1_witness :
    (stateAt 4 2 3).linear_index = some 3
    ∧ (Combinations.new 4 2).combinatorial_index 3 = some (stateAt 4 2 3).digits :=
  rank_unrank_roundtrip_C1 4 2 3 (by decide) (by decide) (by decide)

/-- C2: for `k ≤ n ≤ 62`, fully draining a fresh enumerator (any fuel
above `C(n,k)` pulls) yields exactly `C(n,k)` combinations, pairwise in
strictly increasing lexicographic order (hence distinct), and each pulled
sequence is a strictly increasing length-`k` combination over `[0,n)`. -/
theorem drain_fresh_C2 (n k fuel : Nat) (hkn : k ≤ n) (h62 : n ≤ 62)
    (hfuel : Nat.choose n k < fuel) :
    (drain fuel (Combinations.new n k)).length = Nat.choose n k
    ∧ (drain fuel (Combinations.new n k)).Pairwise (fun a b => lexLtb a b = true)
    ∧ (drain fuel (Combinations.new n k)).Nodup
    ∧ ∀ d ∈ drain fuel (Combinations.new n k), IsCombo n k d := by
  have hD := drain_new_eq n k fuel hkn hfuel
  rw [hD]
  have hpair : ((List.range' 0 (Nat.choose n k)).map
      (fun i => (stateAt n k i).digits)).Pairwise (fun a b => lexLtb a b = true) := by
    rw [List.pairwise_map]
    refine List.Pairwise.imp_of_mem ?_ (List.pairwise_lt_range' 0 (Nat.choose n k))
    intro i j hi hj hij
    rw [List.mem_range'_1] at hj
    exact dig_lex_lt n k hkn i j hij (by omega)
  refine ⟨by simp, hpair, ?_, ?_⟩
  · refine List.Pairwise.imp ?_ hpair
    intro a b hab heq
    rw [heq, lexLtb_irrefl b] at hab
    cases hab
  · intro d hd
    rw [List.mem_map] at hd
    obtain ⟨i, hi, hdi⟩ := hd
    rw [List.mem_range'_1] at hi
    obtain ⟨_, _, hlen, hvf, _, _⟩ := (master n k hkn i).1 (by omega)
    have hic := VF_isCombo hvf
    rw [hlen] at hic
    rw [← hdi]
    exact hic

theorem drain_fresh_C2_witness :
    (drain 7 (Combinations.new 4 2)).length = Nat.choose 4 2
    ∧ (drain 7 (Combinations.new 4 2)).Pairwise (fun a b => lexLtb a b = true)
    ∧ (drain 7 (Combinations.new 4 2)).Nodup
    ∧ ∀ d ∈ drain 7 (Combinations.new 4 2), IsCombo 4 2 d :=
  drain_fresh_C2 4 2 7 (by decide) (by decide) (by decide)

/-- C3: for `k ≤ n ≤ 62`, on the state after `m < C(n,k)` advances
`linear_index` returns `some` of the number of combinations of the full
enumeration that strictly precede the current digits in lexicographic
order (which is `m`); it returns `none` on every exhausted state
(`m ≥ C(n,k)`) and on every state with `k > n`; for `k = 0` it returns
`some 0` before the empty combination is consumed and `none` afterwards. -/
theorem linear_index_spec_C3 (n k m fuel : Nat) (hkn : k ≤ n) (h62 : n ≤ 62)
    (hfuel : Nat.choose n k < fuel) :
    (m < Nat.choose n k →
      (stateAt n k m).linear_index
        = some ((drain fuel (Combinations.new n k)).countP
            (fun e => lexLtb e (stateAt n k m).digits)))
    ∧ (Nat.choose n k ≤ m → (stateAt n k m).linear_index = none)
    ∧ (∀ c : Combinations, c.n < c.k → c.linear_index = none)
    ∧ (k = 0 → (stateAt n k 0).linear_index = some 0
        ∧ (1 ≤ m → (stateAt n k m).linear_index = none)) := by
  refine ⟨?_, ?_, ?_, ?_⟩
  · intro hm
    rw [stateAt_linear_index n k h62 hkn m hm, drain_new_eq n k fuel hkn hfuel]
    rw [countP_preceding n k hkn m hm]
  · intro hm
    exact stateAt_linear_index_none n k hkn m hm
  · intro c hnk
    exact linear_index_none_of_gt c hnk
  · intro hk0
    subst hk0
    constructor
    · rw [stateAt_zero, new_k_le n 0 (by omega)]
      simp [Combinations.linear_index]
    · intro hm1
      have hsent := (master n 0 hkn m).2 (by rw [Nat.choose_zero_right]; omega)
      rw [hsent]
      simp [Combinations.linear_index]

theorem linear_index_spec_C3_witness :
    (2 < Nat.choose 4 2 →
      (stateAt 4 2 2).linear_index
        = some ((drain 7 (Combinations.new 4 2)).countP
            (fun e => lexLtb e (stateAt 4 2 2).digits)))
    ∧ (Nat.choose 4 2 ≤ 2 → (stateAt 4 2 2).linear_index = none)
    ∧ (∀ c : Combinations, c.n < c.k → c.linear_index = none)
    ∧ (2 = 0 → (stateAt 4 2 0).linear_index = some 0
        ∧ (1 ≤ 2 → (stateAt 4 2 2).linear_index = none)) :=
  linear_index_spec_C3 4 2 2 7 (by decide) (by decide) (by decide)
